import Mathlib

/-! The relay engine of squirrel-land/squirrels, its liveness tracker and the pass-through
policy.

A shallow embedding of

* `master/nodeManager.go` (the `PositionManager` liveness tracker),
* `models/septembers/passThrough/passThrough.go` (the pass-through delivery policy),
* `master/master.go` (`NewMaster`, `clientJoin`, `clientLeave`, `isBroadcast`,
  `isIPv4Multicast`, one iteration of `frameHandler`, the join part of `handleWS`);
  `squirrel-master/master.go` carries the same code, its join part under the name `accept`.

Conventions.  Go `int` is `Int`.  A Go run-time panic (index out of range, nil
dereference) is the value `none`.  Mutexes are not modelled: every function below is one
atomic step.  A channel is the append-only log of the values sent into it.
-/

namespace Squirrels

/-! ## Go slices -/

/-- Go slice read `s[i]` with an `int` index; `none` is the out-of-range panic. -/
def index {α : Type} (s : List α) (i : Int) : Option α :=
  if 0 ≤ i then s[i.toNat]? else none

/-- Go slice write `s[i] = v` with an `int` index; `none` is the out-of-range panic. -/
def assign {α : Type} (s : List α) (i : Int) (v : α) : Option (List α) :=
  if 0 ≤ i ∧ i.toNat < s.length then some (s.set i.toNat v) else none

/-! ## master/nodeManager.go -/

/-- The liveness tracker.  `enabledChanged` holds one log per registered channel.  The
mutexes and the unused `addrReverse` pointer are left out. -/
structure PositionManager where
  isEnabled : List Bool
  enabledChanged : List (List (List Int))
deriving DecidableEq

/-- Source `NewNodeManager(size, addrReverse)`. -/
def NewNodeManager (size : Nat) : PositionManager :=
  { isEnabled := List.replicate size false, enabledChanged := [] }

/-- The loop of `calculateEnabled`: `for i, v := range p.isEnabled { if v { e = append(e, i) } }`,
started at index `i` with `e` collected so far. -/
def calculateEnabledLoop : List Bool → Int → List Int → List Int
  | [], _, e => e
  | v :: rest, i, e => calculateEnabledLoop rest (i + 1) (if v then e ++ [i] else e)

/-- Source `calculateEnabled()`. -/
def PositionManager.calculateEnabled (p : PositionManager) : List Int :=
  calculateEnabledLoop p.isEnabled 0 []

/-- Source `Enabled()`. -/
def PositionManager.Enabled (p : PositionManager) : List Int :=
  p.calculateEnabled

/-- Source `notifyEnabledChanged()`: `for _, c := range p.enabledChanged { c <- p.calculateEnabled() }`. -/
def PositionManager.notifyEnabledChanged (p : PositionManager) : PositionManager :=
  { p with enabledChanged := p.enabledChanged.map (fun c => c ++ [p.calculateEnabled]) }

/-- Source `Enable(index)`. -/
def PositionManager.Enable (p : PositionManager) (idx : Int) : Option PositionManager :=
  match assign p.isEnabled idx true with
  | none => none
  | some v => some ({ p with isEnabled := v }).notifyEnabledChanged

/-- Source `Disable(index)`. -/
def PositionManager.Disable (p : PositionManager) (idx : Int) : Option PositionManager :=
  match assign p.isEnabled idx false with
  | none => none
  | some v => some ({ p with isEnabled := v }).notifyEnabledChanged

/-- Source `IsEnabled(index)`. -/
def PositionManager.IsEnabled (p : PositionManager) (idx : Int) : Option Bool :=
  index p.isEnabled idx

/-- Source `RegisterEnabledChanged(channel)`; the new channel has received nothing yet. -/
def PositionManager.RegisterEnabledChanged (p : PositionManager) : PositionManager :=
  { p with enabledChanged := p.enabledChanged ++ [[]] }

/-- One call on the tracker that changes its state: `Enable(index)` or `Disable(index)`. -/
inductive TrackerCall where
  | Enable (idx : Int)
  | Disable (idx : Int)
deriving DecidableEq

/-- The index a call is made with. -/
def TrackerCall.idx : TrackerCall → Int
  | TrackerCall.Enable i => i
  | TrackerCall.Disable i => i

/-- Make one call. -/
def PositionManager.call (p : PositionManager) : TrackerCall → Option PositionManager
  | TrackerCall.Enable i => p.Enable i
  | TrackerCall.Disable i => p.Disable i

/-- Make a sequence of calls, one after the other. -/
def PositionManager.run (p : PositionManager) : List TrackerCall → Option PositionManager
  | [] => some p
  | c :: rest =>
    match p.call c with
    | none => none
    | some q => q.run rest

/-- The lists `Enabled()` returns right after each call of a sequence, in order. -/
def PositionManager.enabledAfterEach (p : PositionManager) : List TrackerCall → List (List Int)
  | [] => []
  | c :: rest =>
    match p.call c with
    | none => []
    | some q => q.Enabled :: q.enabledAfterEach rest

/-! ## models/septembers/passThrough/passThrough.go

The policy keeps a pointer to the tracker, set by `Initialize`; each call reads the
tracker as it is at that moment, so the tracker is an argument here. -/

/-- Source `isToBeDelivered(id1, id2)`; `&&` evaluates its right side only when the left is true. -/
def isToBeDelivered (p : PositionManager) (id1 id2 : Int) : Option Bool :=
  match p.IsEnabled id1 with
  | none => none
  | some false => some false
  | some true =>
    match p.IsEnabled id2 with
    | none => none
    | some b => some (if b then true else false)

/-- Source `SendUnicast(source, destination, size)`. -/
def SendUnicast (p : PositionManager) (source destination _size : Int) : Option Bool :=
  isToBeDelivered p source destination

/-- The loop of `SendBroadcast` over the remaining elements of `Enabled()`, with the
current `underlying` and `count`. -/
def SendBroadcastLoop (source : Int) : List Int → List Int → Nat → Option (List Int × Nat)
  | [], underlying, count => some (underlying, count)
  | i :: rest, underlying, count =>
    if i ≠ source then
      match assign underlying (count : Int) i with
      | none => none
      | some u => SendBroadcastLoop source rest u (count + 1)
    else SendBroadcastLoop source rest underlying count

/-- Source `SendBroadcast(source, size, underlying)`: the returned slice `underlying[:count]`
and `underlying` as the call leaves it. -/
def SendBroadcast (p : PositionManager) (source _size : Int) (underlying : List Int) :
    Option (List Int × List Int) :=
  match SendBroadcastLoop source p.Enabled underlying 0 with
  | none => none
  | some (u, count) => some (u.take count, u)

/-! ## common/types.go -/

/-- The `September` interface as the relay engine uses it. -/
structure September where
  SendUnicast : PositionManager → Int → Int → Int → Option Bool
  SendBroadcast : PositionManager → Int → Int → List Int → Option (List Int × List Int)

/-- Source `CreateSeptember()`: the pass-through policy. -/
def CreateSeptember : September :=
  { SendUnicast := SendUnicast, SendBroadcast := SendBroadcast }

/-! ## Collaborators of the relay engine whose source is not part of the embedded files -/

/-- A hardware address, `net.HardwareAddr`: a slice of bytes. -/
abbrev HardwareAddr := List Nat

/-- Modelled from the spec: the Address Pool (`addressPool`, its source file is missing).
Only its capacity matters here. -/
structure addressPool where
  Capacity : Nat
deriving DecidableEq

/-- Modelled from the spec: `GetAddress(identity)` "fails with `OutOfRange` if
`identity < 1` or `identity > capacity`" and is otherwise the subnet base plus the
identity offset; the offset stands for the address. -/
def addressPool.GetAddress (a : addressPool) (identity : Int) : Option Int :=
  if identity < 1 ∨ identity > (a.Capacity : Int) then none else some identity

/-- Modelled from the spec: the Address Reverse Table (`addressReverse`, its source file
is missing), a map from hardware address to identity kept as an association list with at
most one entry per key. -/
abbrev addressReverse := List (HardwareAddr × Int)

/-- Modelled from the spec: `newAddressReverse()`, the empty table. -/
def newAddressReverse : addressReverse := []

/-- Modelled from the spec: `Remove(hardwareAddress)` "deletes the mapping if present;
no-op otherwise". -/
def addressReverse.Remove (t : addressReverse) (addr : HardwareAddr) : addressReverse :=
  t.filter (fun e => decide (e.1 ≠ addr))

/-- Modelled from the spec: `Add(hardwareAddress, identity)` "registers a mapping;
overwrites any stale mapping for the same address". -/
def addressReverse.Add (t : addressReverse) (addr : HardwareAddr) (identity : Int) :
    addressReverse :=
  (addr, identity) :: t.Remove addr

/-- Modelled from the spec: `Get(hardwareAddress) → (identity, found)`; `none` is
"not found". -/
def addressReverse.Get (t : addressReverse) (addr : HardwareAddr) : Option Int :=
  match t.find? (fun e => decide (e.1 = addr)) with
  | none => none
  | some e => some e.2

/-- Modelled from the spec: the transport link (`common.Link`, its source file is
missing), "a reliable, ordered, bidirectional byte-stream abstraction per endpoint";
here it is identified by its connection. -/
structure Link where
  conn : Nat
deriving DecidableEq

/-- Modelled from the spec: the shared buffer (`common.ReusableSlice`, its source file is
missing): its identity and the bytes `Slice()` returns.  The reference count is followed
through the `AddOwner` and `Done` calls made on it. -/
structure ReusableSlice where
  ptr : Nat
  Slice : List Nat
deriving DecidableEq

/-- External library `ethernet.Frame.Destination()`, `f[:6:6]`: the first six bytes of
the frame.  The library slices by capacity; a frame shorter than six bytes is left out of
the model (`none`), and no statement below is about such a frame. -/
def Destination (frame : List Nat) : Option HardwareAddr :=
  if 6 ≤ frame.length then some (frame.take 6) else none

/-- External library `ethernet.Frame.Tagging()`: `Tagged` (4) when `f[12] == 0x81 &&
f[13] == 0x00`, `DoubleTagged` (8) when `f[12] == 0x88 && f[13] == 0xa8`, else
`NotTagged` (0); `&&` reads `f[13]` only when `f[12]` matches, and a read past the end of
the frame panics. -/
def Tagging (frame : List Nat) : Option Nat :=
  match index frame 12 with
  | none => none
  | some b12 =>
    if b12 = 0x81 then
      match index frame 13 with
      | none => none
      | some b13 => if b13 = 0x00 then some 4 else some 0
    else if b12 = 0x88 then
      match index frame 13 with
      | none => none
      | some b13 => if b13 = 0xa8 then some 8 else some 0
    else some 0

/-- External library `ethernet.Frame.Payload()`, `f[12+f.Tagging()+2:]`: the bytes after
the header, which is 14 bytes long plus the VLAN tags; `none` is the panic of `Tagging`
or of the slice expression on a frame shorter than its header. -/
def Payload (frame : List Nat) : Option (List Nat) :=
  match Tagging frame with
  | none => none
  | some tagging =>
    if 12 + tagging + 2 ≤ frame.length then some (frame.drop (12 + tagging + 2)) else none

/-- Modelled from the spec: the join response (`common.JoinRsp`, its source file is
missing) handed to `SendJoinRsp`: the assigned address (the mask is left out) or the error. -/
structure JoinRsp where
  Address : Option Int
  Error : Option String
deriving DecidableEq

/-! ## master/master.go -/

/-- Source `type client struct { Link *common.Link; Addr net.HardwareAddr }`. -/
structure client where
  Link : Squirrels.Link
  Addr : HardwareAddr
deriving DecidableEq

/-- The mutable part of `Master`; a `nil` slot of `clients` is `none`.  The policy is
fixed at construction and is passed to `frameHandlerStep` as an argument. -/
structure Master where
  addressPool : Squirrels.addressPool
  clients : List (Option client)
  addrReverse : Squirrels.addressReverse
  positionManager : PositionManager
deriving DecidableEq

/-- Source `NewMaster(network, september)` for a network whose address pool has the given capacity. -/
def NewMaster (capacity : Nat) : Master :=
  { addressPool := { Capacity := capacity }
    clients := List.replicate (capacity + 1) none
    addrReverse := newAddressReverse
    positionManager := NewNodeManager (capacity + 1) }

/-- Source `clientJoin(identity, addr, link)`. -/
def Master.clientJoin (master : Master) (identity : Int) (addr : HardwareAddr)
    (link : Link) : Option Master :=
  match assign master.clients identity (some { Link := link, Addr := addr }) with
  | none => none
  | some clients =>
    match master.positionManager.Enable identity with
    | none => none
    | some pm =>
      some { master with
        clients := clients
        positionManager := pm
        addrReverse := master.addrReverse.Add addr identity }

/-- Source `clientLeave(identity, err)`: remove the address mapping, clear the slot, disable the
identity, in this order.  Reading `master.clients[identity].Addr` of a `nil` slot panics. -/
def Master.clientLeave (master : Master) (identity : Int) : Option Master :=
  match index master.clients identity with
  | none => none
  | some none => none
  | some (some c) =>
    let addrReverse := master.addrReverse.Remove c.Addr
    match assign master.clients identity none with
    | none => none
    | some clients =>
      match master.positionManager.Disable identity with
      | none => none
      | some pm =>
        some { master with
          addrReverse := addrReverse
          clients := clients
          positionManager := pm }

/-- Source `isBroadcast(addr)`; `&&` stops at the first byte that differs. -/
def isBroadcast (addr : HardwareAddr) : Option Bool := do
  if (← index addr 0) ≠ 0xff then return false
  if (← index addr 1) ≠ 0xff then return false
  if (← index addr 2) ≠ 0xff then return false
  if (← index addr 3) ≠ 0xff then return false
  if (← index addr 4) ≠ 0xff then return false
  return decide ((← index addr 5) = 0xff)

/-- Source `isIPv4Multicast(addr)`. -/
def isIPv4Multicast (addr : HardwareAddr) : Option Bool := do
  if (← index addr 0) ≠ 0x01 then return false
  if (← index addr 1) ≠ 0x00 then return false
  return decide ((← index addr 2) = 0x5e)

/-- The identity search of `handleWS` (and of `accept`):
`for identity = 1; identity < len(master.clients); identity++ { if master.clients[identity] == nil { break } }`,
over the slots from `identity` on. -/
def identityLoop : List (Option client) → Int → Int
  | [], identity => identity
  | c :: rest, identity => if c = none then identity else identityLoop rest (identity + 1)

/-- The value of `identity` when the search loop ends. -/
def identitySearch (clients : List (Option client)) : Int :=
  identityLoop (clients.drop 1) 1

/-- What one join handshake leaves behind: the master, the response handed to
`SendJoinRsp` (if any) and the identity registered (if any). -/
structure JoinOutcome where
  master : Master
  sent : Option JoinRsp
  identity : Option Int
deriving DecidableEq

/-- The join handshake: `handleWS` up to `link.StartRoutines()`, which is `accept` of
`squirrel-master/master.go`.  `req` is what `link.GetJoinReq()` returns (`none` for an
error) and `sendOk` whether sending the positive response succeeds. -/
def Master.accept (master : Master) (link : Link) (req : Option HardwareAddr)
    (sendOk : Bool) : Option JoinOutcome :=
  match req with
  | none => some { master := master, sent := none, identity := none }
  | some mac =>
    let identity := identitySearch master.clients
    if identity = (master.clients.length : Int) then
      some { master := master
             sent := some { Address := none, Error := some "Adress poll is full" }
             identity := none }
    else
      match master.addressPool.GetAddress identity with
      | none => some { master := master, sent := none, identity := none }
      | some addr =>
        let rsp : JoinRsp := { Address := some addr, Error := none }
        if sendOk then
          match master.clientJoin identity mac link with
          | none => none
          | some joined => some { master := joined, sent := some rsp, identity := some identity }
        else some { master := master, sent := some rsp, identity := none }

/-- The calls one `frameHandler` iteration makes on the frame buffer and on the
recipients: `buf.AddOwner()`, `master.clients[id].Link.WriteFrame(buf)`, `buf.Done()`. -/
inductive Call where
  | AddOwner (buf : ReusableSlice)
  | WriteFrame (id : Int) (link : Link) (buf : ReusableSlice)
  | Done (buf : ReusableSlice)
deriving DecidableEq

/-- The broadcast fan-out `for _, id := range recipients { if master.clients[id] != nil { ... } }`,
appending to the calls made so far. -/
def fanOut (clients : List (Option client)) (buf : ReusableSlice) :
    List Int → List Call → Option (List Call)
  | [], calls => some calls
  | id :: rest, calls =>
    match index clients id with
    | none => none
    | some none => fanOut clients buf rest calls
    | some (some c) =>
      fanOut clients buf rest (calls ++ [Call.AddOwner buf, Call.WriteFrame id c.Link buf])

/-- The broadcast branch of `frameHandler`: the calls made and `underlying` afterwards. -/
def broadcastBranch (september : September) (master : Master) (myIdentity : Int)
    (underlying : List Int) (buf : ReusableSlice) : Option (List Call × List Int) :=
  match Payload buf.Slice with
  | none => none
  | some payload =>
    match september.SendBroadcast master.positionManager myIdentity payload.length underlying with
    | none => none
    | some (recipients, u) =>
      match fanOut master.clients buf recipients [] with
      | none => none
      | some calls => some (calls ++ [Call.Done buf], u)

/-- The unicast branch of `frameHandler` for destination address `dst`. -/
def unicastBranch (september : September) (master : Master) (myIdentity : Int)
    (underlying : List Int) (buf : ReusableSlice) (dst : HardwareAddr) :
    Option (List Call × List Int) :=
  match master.addrReverse.Get dst with
  | some dstID =>
    match Payload buf.Slice with
    | none => none
    | some payload =>
      match september.SendUnicast master.positionManager myIdentity dstID payload.length with
      | none => none
      | some true =>
        match index master.clients dstID with
        | some (some c) => some ([Call.WriteFrame dstID c.Link buf], underlying)
        | _ => none
      | some false => some ([Call.Done buf], underlying)
  | none =>
    match Payload buf.Slice with
    | none => none
    | some _ => some ([], underlying)

/-- One iteration of the loop of `frameHandler(myIdentity)` for a frame `buf` that
`ReadFrame` returned with `ok`: the calls made, in order, and `underlying` afterwards.
The iteration leaves the master as it is. -/
def frameHandlerStep (september : September) (master : Master) (myIdentity : Int)
    (underlying : List Int) (buf : ReusableSlice) : Option (List Call × List Int) :=
  match Destination buf.Slice with
  | none => none
  | some dst =>
    match isBroadcast dst with
    | none => none
    | some true => broadcastBranch september master myIdentity underlying buf
    | some false =>
      match isIPv4Multicast dst with
      | none => none
      | some true => broadcastBranch september master myIdentity underlying buf
      | some false => unicastBranch september master myIdentity underlying buf dst

/-- The master states reached from `NewMaster` by join handshakes and by `clientLeave`
on identities whose slot is occupied, each taken as one atomic step. -/
inductive Reachable (capacity : Nat) : Master → Prop where
  | init : Reachable capacity (NewMaster capacity)
  | join (m : Master) (o : JoinOutcome) (link : Link) (req : Option HardwareAddr)
      (sendOk : Bool) :
      Reachable capacity m → m.accept link req sendOk = some o → Reachable capacity o.master
  | leave (m next : Master) (identity : Int) :
      Reachable capacity m → m.clientLeave identity = some next → Reachable capacity next

/-- Number of `buf.AddOwner()` calls among the calls of an iteration. -/
def countAddOwner (calls : List Call) : Nat :=
  calls.countP (fun c => match c with | Call.AddOwner _ => true | _ => false)

/-- Number of `buf.Done()` calls among the calls of an iteration. -/
def countDone (calls : List Call) : Nat :=
  calls.countP (fun c => match c with | Call.Done _ => true | _ => false)

/-- Number of `WriteFrame` hand-offs among the calls of an iteration. -/
def countWriteFrame (calls : List Call) : Nat :=
  calls.countP (fun c => match c with | Call.WriteFrame _ _ _ => true | _ => false)

/-- The leave sequence in the words of the spec, first step: "removes the
hardware-address mapping" of the endpoint in slot `identity`. -/
def Master.removeMapping (master : Master) (identity : Int) : Option Master :=
  match index master.clients identity with
  | some (some c) => some { master with addrReverse := master.addrReverse.Remove c.Addr }
  | _ => none

/-- The leave sequence in the words of the spec, second step: "clears the endpoint-table
slot". -/
def Master.clearSlot (master : Master) (identity : Int) : Option Master :=
  match assign master.clients identity none with
  | none => none
  | some clients => some { master with clients := clients }

/-- The leave sequence in the words of the spec, third step: "disables the identity in
the Liveness Tracker". -/
def Master.disableIdentity (master : Master) (identity : Int) : Option Master :=
  match master.positionManager.Disable identity with
  | none => none
  | some pm => some { master with positionManager := pm }

/-- The leave sequence in the words of the spec: the three steps "in that order". -/
def Master.leaveSequence (master : Master) (identity : Int) : Option Master :=
  match master.removeMapping identity with
  | none => none
  | some m1 =>
    match m1.clearSlot identity with
    | none => none
    | some m2 => m2.disableIdentity identity

/-- The unicast branch of `frameHandler` when other tasks change the master between its
three reads: `atGet` is the master when `master.addrReverse.Get(dst)` runs, `atDecision`
when `master.september.SendUnicast(...)` runs, `atHandOff` when `master.clients[dstID]`
is read for `WriteFrame`. -/
def unicastBranchInterleaved (september : September) (atGet atDecision atHandOff : Master)
    (myIdentity : Int) (underlying : List Int) (buf : ReusableSlice) (dst : HardwareAddr) :
    Option (List Call × List Int) :=
  match atGet.addrReverse.Get dst with
  | some dstID =>
    match Payload buf.Slice with
    | none => none
    | some payload =>
      match september.SendUnicast atDecision.positionManager myIdentity dstID payload.length with
      | none => none
      | some true =>
        match index atHandOff.clients dstID with
        | some (some c) => some ([Call.WriteFrame dstID c.Link buf], underlying)
        | _ => none
      | some false => some ([Call.Done buf], underlying)
  | none =>
    match Payload buf.Slice with
    | none => none
    | some _ => some ([], underlying)

/-! ## Slices: reads and writes in range -/

theorem index_natCast {α : Type} (s : List α) (n : Nat) : index s (n : Int) = s[n]? := by
  simp [index]

theorem index_of_nonneg {α : Type} (s : List α) (i : Int) (h : 0 ≤ i) :
    index s i = s[i.toNat]? := by
  simp [index, h]

theorem index_neg {α : Type} (s : List α) (i : Int) (h : i < 0) : index s i = none := by
  simp [index, Int.not_le.mpr h]

theorem assign_natCast {α : Type} (s : List α) (n : Nat) (v : α) (h : n < s.length) :
    assign s (n : Int) v = some (s.set n v) := by
  simp [assign, h]

theorem assign_inRange {α : Type} (s : List α) (i : Int) (v : α) (h0 : 0 ≤ i)
    (h1 : i < s.length) : assign s i v = some (s.set i.toNat v) := by
  have : i.toNat < s.length := by omega
  simp [assign, h0, this]

theorem assign_eq_some {α : Type} {s t : List α} {i : Int} {v : α}
    (h : assign s i v = some t) : 0 ≤ i ∧ i.toNat < s.length ∧ t = s.set i.toNat v := by
  unfold assign at h
  split at h
  · rename_i hc
    exact ⟨hc.1, hc.2, (Option.some.inj h).symm⟩
  · exact absurd h (by simp)

theorem index_set {α : Type} (s : List α) (i j : Int) (v : α) (h0 : 0 ≤ i)
    (h1 : i < s.length) :
    index (s.set i.toNat v) j = if j = i then some v else index s j := by
  by_cases hj : 0 ≤ j
  · rw [index_of_nonneg _ _ hj, index_of_nonneg _ _ hj, List.getElem?_set]
    have hlt : i.toNat < s.length := by omega
    by_cases hij : j = i
    · subst hij
      simp [hlt]
    · have : i.toNat ≠ j.toNat := by omega
      simp [this, hij]
  · have hj2 : j < 0 := by omega
    have : j ≠ i := by omega
    simp [index_neg _ _ hj2, this]

/-! ## The liveness tracker -/

theorem calculateEnabledLoop_acc (l : List Bool) (i : Int) (e : List Int) :
    calculateEnabledLoop l i e = e ++ calculateEnabledLoop l i [] := by
  induction l generalizing i e with
  | nil => simp [calculateEnabledLoop]
  | cons v rest ih =>
    cases v
    · simpa [calculateEnabledLoop] using ih (i + 1) e
    · simp only [calculateEnabledLoop, if_true, List.nil_append]
      rw [ih (i + 1) (e ++ [i]), ih (i + 1) [i]]
      simp

theorem calculateEnabledLoop_cons (v : Bool) (rest : List Bool) (i : Int) :
    calculateEnabledLoop (v :: rest) i [] =
      (if v then [i] else []) ++ calculateEnabledLoop rest (i + 1) [] := by
  cases v
  · simp [calculateEnabledLoop]
  · simp only [calculateEnabledLoop, if_true, List.nil_append]
    rw [calculateEnabledLoop_acc]

theorem mem_calculateEnabledLoop (l : List Bool) (i x : Int) :
    x ∈ calculateEnabledLoop l i [] ↔ i ≤ x ∧ l[(x - i).toNat]? = some true := by
  induction l generalizing i with
  | nil => simp [calculateEnabledLoop]
  | cons v rest ih =>
    rw [calculateEnabledLoop_cons, List.mem_append, ih (i + 1)]
    constructor
    · rintro (h | ⟨h1, h2⟩)
      · cases v
        · simp at h
        · simp at h
          subst h
          simp
      · refine ⟨by omega, ?_⟩
        have : (x - i).toNat = (x - (i + 1)).toNat + 1 := by omega
        rw [this]
        simpa using h2
    · rintro ⟨h1, h2⟩
      by_cases hx : x = i
      · subst hx
        left
        simp at h2
        simp [h2]
      · right
        refine ⟨by omega, ?_⟩
        have : (x - i).toNat = (x - (i + 1)).toNat + 1 := by omega
        rw [this] at h2
        simpa using h2

theorem pairwise_calculateEnabledLoop (l : List Bool) (i : Int) :
    (calculateEnabledLoop l i []).Pairwise (fun a b => a < b) := by
  induction l generalizing i with
  | nil => simp [calculateEnabledLoop]
  | cons v rest ih =>
    rw [calculateEnabledLoop_cons, List.pairwise_append]
    refine ⟨by cases v <;> simp, ih (i + 1), ?_⟩
    intro a ha b hb
    have hb2 := ((mem_calculateEnabledLoop rest (i + 1) b).mp hb).1
    cases v
    · simp at ha
    · simp at ha
      omega

theorem length_calculateEnabledLoop (l : List Bool) (i : Int) :
    (calculateEnabledLoop l i []).length ≤ l.length := by
  induction l generalizing i with
  | nil => simp [calculateEnabledLoop]
  | cons v rest ih =>
    rw [calculateEnabledLoop_cons, List.length_append]
    have := ih (i + 1)
    cases v <;> simp <;> omega

theorem mem_Enabled (p : PositionManager) (i : Int) :
    i ∈ p.Enabled ↔ p.IsEnabled i = some true := by
  unfold PositionManager.Enabled PositionManager.calculateEnabled PositionManager.IsEnabled
  rw [mem_calculateEnabledLoop]
  by_cases h : 0 ≤ i
  · simp [index_of_nonneg _ _ h, h]
  · have h2 : i < 0 := by omega
    simp [index_neg _ _ h2, h]

theorem Enabled_nodup (p : PositionManager) : p.Enabled.Nodup :=
  (pairwise_calculateEnabledLoop p.isEnabled 0).imp (fun h => Int.ne_of_lt h)

/-- C6: `Enabled()` is strictly ascending, has no duplicates, and holds exactly the
indices `i` for which `IsEnabled(i)` is true. -/
theorem Enabled_strictly_ascending_and_exact (p : PositionManager) :
    p.Enabled.Pairwise (fun a b => a < b) ∧ p.Enabled.Nodup ∧
      ∀ i : Int, i ∈ p.Enabled ↔ p.IsEnabled i = some true :=
  ⟨pairwise_calculateEnabledLoop p.isEnabled 0,
    (pairwise_calculateEnabledLoop p.isEnabled 0).imp (fun h => Int.ne_of_lt h),
    mem_Enabled p⟩

theorem IsEnabled_inRange (p : PositionManager) (i : Int) (h0 : 0 ≤ i)
    (h1 : i < p.isEnabled.length) : ∃ b, p.IsEnabled i = some b := by
  have hlt : i.toNat < p.isEnabled.length := by omega
  refine ⟨p.isEnabled[i.toNat], ?_⟩
  simp [PositionManager.IsEnabled, index_of_nonneg _ _ h0, List.getElem?_eq_getElem hlt]

/-! ## The pass-through policy -/

/-- C1: for in-range `source` and `destination`, the pass-through `SendUnicast` returns,
and it returns true exactly when `IsEnabled(source)` and `IsEnabled(destination)` are
both true. -/
theorem SendUnicast_true_iff_both_enabled (p : PositionManager)
    (source destination size : Int)
    (hs : 0 ≤ source ∧ source < p.isEnabled.length)
    (hd : 0 ≤ destination ∧ destination < p.isEnabled.length) :
    ∃ b, SendUnicast p source destination size = some b ∧
      (b = true ↔ p.IsEnabled source = some true ∧ p.IsEnabled destination = some true) := by
  obtain ⟨a, ha⟩ := IsEnabled_inRange p source hs.1 hs.2
  obtain ⟨d, hd2⟩ := IsEnabled_inRange p destination hd.1 hd.2
  cases a <;> cases d <;> simp [SendUnicast, isToBeDelivered, ha, hd2]

theorem SendUnicast_true_iff_both_enabled_witness :
    ∃ b, SendUnicast ⟨[false, true, true], []⟩ 1 2 64 = some b ∧
      (b = true ↔ PositionManager.IsEnabled ⟨[false, true, true], []⟩ 1 = some true ∧
        PositionManager.IsEnabled ⟨[false, true, true], []⟩ 2 = some true) :=
  SendUnicast_true_iff_both_enabled ⟨[false, true, true], []⟩ 1 2 64
    (by decide) (by decide)

theorem SendBroadcastLoop_eq (source : Int) (en u : List Int) (count : Nat)
    (h : count + en.length ≤ u.length) :
    SendBroadcastLoop source en u count =
      some (u.take count ++ en.filter (fun i => decide (i ≠ source)) ++
              u.drop (count + (en.filter (fun i => decide (i ≠ source))).length),
            count + (en.filter (fun i => decide (i ≠ source))).length) := by
  induction en generalizing u count with
  | nil => simp [SendBroadcastLoop]
  | cons i rest ih =>
    simp only [List.length_cons] at h
    by_cases hi : i = source
    · have := ih u count (by omega)
      simp [SendBroadcastLoop, hi, this]
    · have hc : count < u.length := by omega
      have := ih (u.set count i) (count + 1) (by simp; omega)
      simp only [SendBroadcastLoop, ne_eq, hi, not_false_eq_true, if_true,
        assign_natCast u count i hc, this, decide_True, List.filter_cons_of_pos,
        List.length_cons]
      have h1 : (u.set count i).take (count + 1) = u.take count ++ [i] := by
        rw [List.set_eq_take_append_cons_drop, if_pos hc]
        rw [List.take_append_eq_append_take]
        simp [List.length_take, Nat.min_eq_left (Nat.le_of_lt hc)]
      have h2 : ∀ k, (u.set count i).drop (count + 1 + k) = u.drop (count + 1 + k) := by
        intro k
        exact List.drop_set_of_lt i u (by omega)
      rw [h1, h2]
      simp
      exact ⟨by congr 1; omega, by omega⟩

theorem SendBroadcast_eq (p : PositionManager) (source size : Int) (underlying : List Int)
    (h : p.isEnabled.length ≤ underlying.length) :
    SendBroadcast p source size underlying =
      some (p.Enabled.filter (fun i => decide (i ≠ source)),
            p.Enabled.filter (fun i => decide (i ≠ source)) ++
              underlying.drop (p.Enabled.filter (fun i => decide (i ≠ source))).length) := by
  have hlen : p.Enabled.length ≤ p.isEnabled.length :=
    length_calculateEnabledLoop p.isEnabled 0
  have := SendBroadcastLoop_eq source p.Enabled underlying 0 (by omega)
  simp only [SendBroadcast, this]
  simp

/-- C2: with `underlying` at least as long as the liveness vector, the pass-through
`SendBroadcast` returns (no index out of range), its result has no duplicates, and an
identity is in it exactly when it is enabled and differs from `source`. -/
theorem SendBroadcast_enabled_minus_source (p : PositionManager) (source size : Int)
    (underlying : List Int) (h : p.isEnabled.length ≤ underlying.length) :
    ∃ recipients u, SendBroadcast p source size underlying = some (recipients, u) ∧
      recipients.Nodup ∧
      ∀ i : Int, i ∈ recipients ↔ (p.IsEnabled i = some true ∧ i ≠ source) := by
  refine ⟨_, _, SendBroadcast_eq p source size underlying h, ?_, ?_⟩
  · exact (Enabled_nodup p).filter _
  · intro i
    simp [List.mem_filter, mem_Enabled]

theorem SendBroadcast_enabled_minus_source_witness :
    ∃ recipients u,
      SendBroadcast ⟨[false, true, true, true], []⟩ 2 64 [9, 9, 9, 9] = some (recipients, u) ∧
      recipients.Nodup ∧
      ∀ i : Int, i ∈ recipients ↔
        (PositionManager.IsEnabled ⟨[false, true, true, true], []⟩ i = some true ∧ i ≠ 2) :=
  SendBroadcast_enabled_minus_source ⟨[false, true, true, true], []⟩ 2 64 [9, 9, 9, 9]
    (by decide)

/-! ## Observers of the liveness tracker -/

theorem call_inRange (p : PositionManager) (c : TrackerCall) (h0 : 0 ≤ c.idx)
    (h1 : c.idx < p.isEnabled.length) :
    ∃ q, p.call c = some q ∧ q.isEnabled.length = p.isEnabled.length ∧
      q.enabledChanged = p.enabledChanged.map (fun l => l ++ [q.Enabled]) := by
  cases c with
  | Enable i =>
    simp only [TrackerCall.idx] at h0 h1
    have hcall : p.call (TrackerCall.Enable i) = some
        (PositionManager.mk (p.isEnabled.set i.toNat true) p.enabledChanged).notifyEnabledChanged := by
      simp only [PositionManager.call, PositionManager.Enable, assign_inRange _ _ _ h0 h1]
    refine ⟨_, hcall, ?_, ?_⟩
    · simp [PositionManager.notifyEnabledChanged]
    · simp [PositionManager.notifyEnabledChanged, PositionManager.Enabled,
        PositionManager.calculateEnabled]
  | Disable i =>
    simp only [TrackerCall.idx] at h0 h1
    have hcall : p.call (TrackerCall.Disable i) = some
        (PositionManager.mk (p.isEnabled.set i.toNat false) p.enabledChanged).notifyEnabledChanged := by
      simp only [PositionManager.call, PositionManager.Disable, assign_inRange _ _ _ h0 h1]
    refine ⟨_, hcall, ?_, ?_⟩
    · simp [PositionManager.notifyEnabledChanged]
    · simp [PositionManager.notifyEnabledChanged, PositionManager.Enabled,
        PositionManager.calculateEnabled]

/-- C5: after any sequence of in-range `Enable`/`Disable` calls, the log of every
registered observer has grown by exactly one notification per call, and the notification
of a call is the list `Enabled()` returns right after that call; every observer gets the
same lists. -/
theorem observers_receive_one_snapshot_per_call (p : PositionManager)
    (ops : List TrackerCall)
    (h : ∀ c ∈ ops, 0 ≤ c.idx ∧ c.idx < p.isEnabled.length) :
    ∃ q, p.run ops = some q ∧
      (p.enabledAfterEach ops).length = ops.length ∧
      q.enabledChanged = p.enabledChanged.map (fun l => l ++ p.enabledAfterEach ops) := by
  induction ops generalizing p with
  | nil =>
    exact ⟨p, rfl, rfl, by simp [PositionManager.enabledAfterEach]⟩
  | cons c rest ih =>
    obtain ⟨hc0, hc1⟩ := h c (List.mem_cons_self c rest)
    obtain ⟨q, hq, hlen, hlog⟩ := call_inRange p c hc0 hc1
    obtain ⟨r, hr, hcount, hlogs⟩ := ih q (fun d hd => by
      rw [hlen]
      exact h d (List.mem_cons_of_mem c hd))
    refine ⟨r, by simp [PositionManager.run, hq, hr], ?_, ?_⟩
    · simp [PositionManager.enabledAfterEach, hq, hcount]
    · rw [hlogs, hlog]
      simp [PositionManager.enabledAfterEach, hq]

theorem observers_receive_one_snapshot_per_call_witness :
    ∃ q, PositionManager.run ⟨[false, false, false], [[], [[1]]]⟩
        [TrackerCall.Enable 1, TrackerCall.Enable 2, TrackerCall.Disable 1] = some q ∧
      (PositionManager.enabledAfterEach ⟨[false, false, false], [[], [[1]]]⟩
        [TrackerCall.Enable 1, TrackerCall.Enable 2, TrackerCall.Disable 1]).length =
        [TrackerCall.Enable 1, TrackerCall.Enable 2, TrackerCall.Disable 1].length ∧
      q.enabledChanged = (PositionManager.mk [false, false, false] [[], [[1]]]).enabledChanged.map
        (fun l => l ++ PositionManager.enabledAfterEach ⟨[false, false, false], [[], [[1]]]⟩
          [TrackerCall.Enable 1, TrackerCall.Enable 2, TrackerCall.Disable 1]) :=
  observers_receive_one_snapshot_per_call ⟨[false, false, false], [[], [[1]]]⟩
    [TrackerCall.Enable 1, TrackerCall.Enable 2, TrackerCall.Disable 1]
    (by decide)

/-! ## The join handshake -/

theorem identityLoop_spec (cs : List (Option client)) (i : Int) :
    i ≤ identityLoop cs i ∧ identityLoop cs i ≤ i + cs.length ∧
      (∀ k : Nat, i + k < identityLoop cs i → cs[k]? ≠ some none) ∧
      (identityLoop cs i < i + cs.length → cs[(identityLoop cs i - i).toNat]? = some none) := by
  induction cs generalizing i with
  | nil => simp [identityLoop]
  | cons c rest ih =>
    obtain ⟨h1, h2, h3, h4⟩ := ih (i + 1)
    by_cases hc : c = none
    · subst hc
      simp only [identityLoop, if_true, List.length_cons]
      refine ⟨by omega, by push_cast; omega, ?_, ?_⟩
      · intro k hk
        omega
      · intro _
        simp
    · simp only [identityLoop, hc, if_false, List.length_cons]
      refine ⟨by omega, by push_cast; omega, ?_, ?_⟩
      · intro k hk
        cases k with
        | zero =>
          simp only [List.getElem?_cons_zero, ne_eq, Option.some.injEq]
          exact hc
        | succ n =>
          simp only [List.getElem?_cons_succ]
          exact h3 n (by push_cast at hk; omega)
      · intro hlt
        have h5 := h4 (by push_cast at hlt; omega)
        have : (identityLoop rest (i + 1) - i).toNat =
            (identityLoop rest (i + 1) - (i + 1)).toNat + 1 := by omega
        rw [this]
        simpa using h5

theorem index_pos_eq_drop {α : Type} (s : List α) (j : Int) (h : 1 ≤ j) :
    index s j = (s.drop 1)[(j - 1).toNat]? := by
  rw [index_of_nonneg _ _ (by omega), List.getElem?_drop]
  congr 1
  omega

theorem identitySearch_spec (clients : List (Option client)) (cap : Nat)
    (hlen : clients.length = cap + 1) :
    1 ≤ identitySearch clients ∧ identitySearch clients ≤ (cap : Int) + 1 ∧
      (∀ j : Int, 1 ≤ j → j < identitySearch clients → index clients j ≠ some none) ∧
      (identitySearch clients ≤ cap → index clients (identitySearch clients) = some none) := by
  have hd : (clients.drop 1).length = cap := by simp [hlen]
  obtain ⟨h1, h2, h3, h4⟩ := identityLoop_spec (clients.drop 1) 1
  rw [hd] at h2 h4
  refine ⟨h1, by unfold identitySearch; omega, ?_, ?_⟩
  · intro j hj1 hj2
    rw [index_pos_eq_drop _ _ hj1]
    apply h3
    unfold identitySearch at hj2
    omega
  · intro hle
    unfold identitySearch at hle ⊢
    rw [index_pos_eq_drop _ _ h1]
    exact h4 (by omega)

theorem identitySearch_full_iff (clients : List (Option client)) (cap : Nat)
    (hlen : clients.length = cap + 1) :
    identitySearch clients = (clients.length : Int) ↔
      ∀ j : Int, 1 ≤ j → j ≤ cap → index clients j ≠ some none := by
  obtain ⟨h1, h2, h3, h4⟩ := identitySearch_spec clients cap hlen
  rw [hlen]
  constructor
  · intro heq j hj1 hj2
    exact h3 j hj1 (by rw [heq]; push_cast; omega)
  · intro hfull
    by_contra hne
    have hle : identitySearch clients ≤ cap := by push_cast at hne; omega
    exact hfull _ h1 hle (h4 hle)

theorem clientJoin_eq_some {master joined : Master} {identity : Int} {addr : HardwareAddr}
    {link : Link} (h : master.clientJoin identity addr link = some joined) :
    0 ≤ identity ∧ identity.toNat < master.clients.length ∧
      identity.toNat < master.positionManager.isEnabled.length ∧
      joined.addressPool = master.addressPool ∧
      joined.clients = master.clients.set identity.toNat (some { Link := link, Addr := addr }) ∧
      joined.positionManager.isEnabled =
        master.positionManager.isEnabled.set identity.toNat true ∧
      joined.addrReverse = master.addrReverse.Add addr identity := by
  unfold Master.clientJoin at h
  split at h
  · exact absurd h (by simp)
  · rename_i clients hc
    obtain ⟨h0, h1, h2⟩ := assign_eq_some hc
    unfold PositionManager.Enable at h
    split at h
    · exact absurd h (by simp)
    · rename_i pm hpm
      split at hpm
      · exact absurd hpm (by simp)
      · rename_i v hv
        obtain ⟨_, h4, h5⟩ := assign_eq_some hv
        have hj := (Option.some.inj h).symm
        have hp := (Option.some.inj hpm).symm
        subst hj
        subst hp
        exact ⟨h0, h1, h4, rfl, h2, by simp [PositionManager.notifyEnabledChanged, h5], rfl⟩

theorem clientJoin_inRange (master : Master) (identity : Int) (addr : HardwareAddr)
    (link : Link) (h0 : 0 ≤ identity) (h1 : identity < master.clients.length)
    (h2 : identity < master.positionManager.isEnabled.length) :
    ∃ joined, master.clientJoin identity addr link = some joined := by
  simp only [Master.clientJoin, assign_inRange _ _ _ h0 h1, PositionManager.Enable,
    assign_inRange _ _ _ h0 h2]
  exact ⟨_, rfl⟩

theorem clientLeave_eq_some {master next : Master} {identity : Int}
    (h : master.clientLeave identity = some next) :
    0 ≤ identity ∧ identity.toNat < master.clients.length ∧
      ∃ c, index master.clients identity = some (some c) ∧
        next.addressPool = master.addressPool ∧
        next.clients = master.clients.set identity.toNat none ∧
        next.positionManager.isEnabled =
          master.positionManager.isEnabled.set identity.toNat false ∧
        next.addrReverse = master.addrReverse.Remove c.Addr := by
  unfold Master.clientLeave at h
  split at h
  · exact absurd h (by simp)
  · exact absurd h (by simp)
  · rename_i c hc
    simp only at h
    split at h
    · exact absurd h (by simp)
    · rename_i clients hcl
      obtain ⟨h0, h1, h2⟩ := assign_eq_some hcl
      unfold PositionManager.Disable at h
      split at h
      · exact absurd h (by simp)
      · rename_i pm hpm
        split at hpm
        · exact absurd hpm (by simp)
        · rename_i v hv
          obtain ⟨_, _, h5⟩ := assign_eq_some hv
          have hj := (Option.some.inj h).symm
          have hp := (Option.some.inj hpm).symm
          subst hj
          subst hp
          exact ⟨h0, h1, c, hc, rfl, h2,
            by simp [PositionManager.notifyEnabledChanged, h5], rfl⟩

theorem accept_eq_some {master : Master} {o : JoinOutcome} {link : Link}
    {req : Option HardwareAddr} {sendOk : Bool}
    (h : master.accept link req sendOk = some o) :
    (o.master = master ∧ o.identity = none) ∨
      ∃ mac, req = some mac ∧ sendOk = true ∧
        identitySearch master.clients ≠ (master.clients.length : Int) ∧
        master.clientJoin (identitySearch master.clients) mac link = some o.master ∧
        o.identity = some (identitySearch master.clients) ∧
        o.sent = some { Address := some (identitySearch master.clients), Error := none } := by
  unfold Master.accept at h
  split at h
  · left
    have := (Option.some.inj h).symm
    subst this
    exact ⟨rfl, rfl⟩
  · rename_i mac
    simp only at h
    split at h
    · left
      have := (Option.some.inj h).symm
      subst this
      exact ⟨rfl, rfl⟩
    · rename_i hne
      split at h
      · left
        have := (Option.some.inj h).symm
        subst this
        exact ⟨rfl, rfl⟩
      · rename_i addr haddr
        have haddr2 : addr = identitySearch master.clients := by
          unfold addressPool.GetAddress at haddr
          split at haddr
          · exact absurd haddr (by simp)
          · exact (Option.some.inj haddr).symm
        split at h
        · rename_i hs
          split at h
          · exact absurd h (by simp)
          · rename_i joined hj
            right
            have := (Option.some.inj h).symm
            subst this
            exact ⟨mac, rfl, hs, hne, hj, rfl, by simp [haddr2]⟩
        · left
          have := (Option.some.inj h).symm
          subst this
          exact ⟨rfl, rfl⟩

theorem accept_full (master : Master) (link : Link) (mac : HardwareAddr) (sendOk : Bool)
    (h : identitySearch master.clients = (master.clients.length : Int)) :
    master.accept link (some mac) sendOk =
      some { master := master
             sent := some { Address := none, Error := some "Adress poll is full" }
             identity := none } := by
  simp [Master.accept, h]

theorem accept_not_full (master : Master) (link : Link) (mac : HardwareAddr)
    (sendOk : Bool) (h1 : 1 ≤ identitySearch master.clients)
    (h2 : identitySearch master.clients ≤ master.addressPool.Capacity)
    (hne : identitySearch master.clients ≠ (master.clients.length : Int)) :
    master.accept link (some mac) sendOk =
      if sendOk then
        match master.clientJoin (identitySearch master.clients) mac link with
        | none => none
        | some joined =>
          some { master := joined
                 sent := some { Address := some (identitySearch master.clients), Error := none }
                 identity := some (identitySearch master.clients) }
      else
        some { master := master
               sent := some { Address := some (identitySearch master.clients), Error := none }
               identity := none } := by
  have hget : master.addressPool.GetAddress (identitySearch master.clients) =
      some (identitySearch master.clients) := by
    unfold addressPool.GetAddress
    rw [if_neg (by omega)]
  simp only [Master.accept, hne, if_false, hget]

/-- C3: for an endpoint table of length capacity+1 the identity search never yields 0;
when some slot in 1..capacity is empty it yields the lowest such identity; the handshake
answers with the "full" error response, leaving the master as it is, exactly when no slot
in 1..capacity is empty; and otherwise (the liveness vector having the same length) a
handshake whose response is sent registers the selected identity. -/
theorem join_selects_lowest_free_identity (master : Master) (link : Link)
    (mac : HardwareAddr) (sendOk : Bool)
    (hlen : master.clients.length = master.addressPool.Capacity + 1) :
    1 ≤ identitySearch master.clients ∧
    ((∃ j : Int, 1 ≤ j ∧ j ≤ master.addressPool.Capacity ∧ index master.clients j = some none) →
      identitySearch master.clients ≤ master.addressPool.Capacity ∧
      index master.clients (identitySearch master.clients) = some none ∧
      ∀ j : Int, 1 ≤ j → j < identitySearch master.clients →
        index master.clients j ≠ some none) ∧
    ((∀ j : Int, 1 ≤ j → j ≤ master.addressPool.Capacity →
        index master.clients j ≠ some none) ↔
      master.accept link (some mac) sendOk =
        some { master := master
               sent := some { Address := none, Error := some "Adress poll is full" }
               identity := none }) ∧
    (master.positionManager.isEnabled.length = master.addressPool.Capacity + 1 →
      (∃ j : Int, 1 ≤ j ∧ j ≤ master.addressPool.Capacity ∧
        index master.clients j = some none) →
      ∃ joined, master.accept link (some mac) true =
        some { master := joined
               sent := some { Address := some (identitySearch master.clients), Error := none }
               identity := some (identitySearch master.clients) }) := by
  obtain ⟨h1, h2, h3, h4⟩ := identitySearch_spec master.clients _ hlen
  have hfull := identitySearch_full_iff master.clients _ hlen
  have hfree : (∃ j : Int, 1 ≤ j ∧ j ≤ master.addressPool.Capacity ∧
      index master.clients j = some none) →
      identitySearch master.clients ≤ master.addressPool.Capacity := by
    rintro ⟨j, hj1, hj2, hj3⟩
    by_contra hgt
    have heq : identitySearch master.clients = (master.clients.length : Int) := by
      rw [hlen]; push_cast; omega
    exact (hfull.mp heq) j hj1 hj2 hj3
  refine ⟨h1, fun hex => ⟨hfree hex, h4 (hfree hex), h3⟩, ?_, ?_⟩
  · constructor
    · intro hall
      exact accept_full master link mac sendOk (hfull.mpr hall)
    · intro hacc
      by_contra hnot
      have hne : identitySearch master.clients ≠ (master.clients.length : Int) :=
        fun heq => hnot (hfull.mp heq)
      have hle : identitySearch master.clients ≤ master.addressPool.Capacity := by
        rw [hlen] at hne; push_cast at hne; omega
      rw [accept_not_full master link mac sendOk h1 hle hne] at hacc
      cases sendOk with
      | false => simp at hacc
      | true =>
        cases hj : master.clientJoin (identitySearch master.clients) mac link with
        | none => simp [hj] at hacc
        | some joined => simp [hj] at hacc
  · intro hpm hex
    have hle := hfree hex
    have hne : identitySearch master.clients ≠ (master.clients.length : Int) := by
      rw [hlen]; push_cast; omega
    obtain ⟨joined, hj⟩ := clientJoin_inRange master (identitySearch master.clients) mac link
      (by omega) (by rw [hlen]; push_cast; omega) (by rw [hpm]; push_cast; omega)
    exact ⟨joined, by rw [accept_not_full master link mac true h1 hle hne]; simp [hj]⟩

theorem join_selects_lowest_free_identity_witness :
    1 ≤ identitySearch (Master.mk ⟨2⟩ [none, some ⟨⟨1⟩, [2, 0, 0, 0, 0, 1]⟩, none]
        [([2, 0, 0, 0, 0, 1], 1)] ⟨[false, true, false], []⟩).clients ∧
      identitySearch (Master.mk ⟨2⟩ [none, some ⟨⟨1⟩, [2, 0, 0, 0, 0, 1]⟩, none]
        [([2, 0, 0, 0, 0, 1], 1)] ⟨[false, true, false], []⟩).clients = 2 :=
  ⟨(join_selects_lowest_free_identity
      (Master.mk ⟨2⟩ [none, some ⟨⟨1⟩, [2, 0, 0, 0, 0, 1]⟩, none]
        [([2, 0, 0, 0, 0, 1], 1)] ⟨[false, true, false], []⟩)
      ⟨2⟩ [2, 0, 0, 0, 0, 2] true (by decide)).1, by decide⟩

/-- C8: a join attempted while every slot in 1..capacity is occupied is answered with
the error join response, registers no identity and returns the master unchanged: the
endpoint table, the Address Reverse Table and the liveness tracker are the same before
and after. -/
theorem join_when_full_mutates_nothing (master : Master) (link : Link)
    (mac : HardwareAddr) (sendOk : Bool)
    (hlen : master.clients.length = master.addressPool.Capacity + 1)
    (hfull : ∀ j : Int, 1 ≤ j → j ≤ master.addressPool.Capacity →
      index master.clients j ≠ some none) :
    ∃ o, master.accept link (some mac) sendOk = some o ∧
      o.sent = some { Address := none, Error := some "Adress poll is full" } ∧
      o.identity = none ∧
      o.master = master ∧
      o.master.clients = master.clients ∧
      o.master.addrReverse = master.addrReverse ∧
      o.master.positionManager = master.positionManager :=
  ⟨_, accept_full master link mac sendOk
      ((identitySearch_full_iff master.clients _ hlen).mpr hfull),
    rfl, rfl, rfl, rfl, rfl, rfl⟩

theorem join_when_full_mutates_nothing_witness :
    (NewMaster 1).accept ⟨1⟩ (some [2, 0, 0, 0, 0, 1]) true =
        some { master := Master.mk ⟨1⟩ [none, some ⟨⟨1⟩, [2, 0, 0, 0, 0, 1]⟩]
                 [([2, 0, 0, 0, 0, 1], 1)] ⟨[false, true], []⟩
               sent := some { Address := some 1, Error := none }
               identity := some 1 } ∧
      ∃ o, (Master.mk ⟨1⟩ [none, some ⟨⟨1⟩, [2, 0, 0, 0, 0, 1]⟩]
              [([2, 0, 0, 0, 0, 1], 1)] ⟨[false, true], []⟩).accept ⟨2⟩
              (some [2, 0, 0, 0, 0, 2]) true = some o ∧
        o.sent = some { Address := none, Error := some "Adress poll is full" } ∧
        o.identity = none ∧
        o.master = Master.mk ⟨1⟩ [none, some ⟨⟨1⟩, [2, 0, 0, 0, 0, 1]⟩]
              [([2, 0, 0, 0, 0, 1], 1)] ⟨[false, true], []⟩ ∧
        o.master.clients = [none, some ⟨⟨1⟩, [2, 0, 0, 0, 0, 1]⟩] ∧
        o.master.addrReverse = [([2, 0, 0, 0, 0, 1], 1)] ∧
        o.master.positionManager = ⟨[false, true], []⟩ :=
  ⟨by decide,
    join_when_full_mutates_nothing
      (Master.mk ⟨1⟩ [none, some ⟨⟨1⟩, [2, 0, 0, 0, 0, 1]⟩]
        [([2, 0, 0, 0, 0, 1], 1)] ⟨[false, true], []⟩)
      ⟨2⟩ [2, 0, 0, 0, 0, 2] true (by decide)
      (by
        intro j h1 h2
        have hj : j = 1 := by
          have : ((Master.mk ⟨1⟩ [none, some ⟨⟨1⟩, [2, 0, 0, 0, 0, 1]⟩]
            [([2, 0, 0, 0, 0, 1], 1)] ⟨[false, true], []⟩).addressPool.Capacity : Int) = 1 := rfl
          omega
        subst hj
        decide)⟩

/-! ## Reachable master states -/

theorem reachable_wellFormed (capacity : Nat) (m : Master) (h : Reachable capacity m) :
    m.addressPool.Capacity = capacity ∧ m.clients.length = capacity + 1 ∧
      m.positionManager.isEnabled = m.clients.map Option.isSome := by
  induction h with
  | init => simp [NewMaster, NewNodeManager]
  | join m o link req sendOk _ hacc ih =>
    obtain ⟨hc, hl, hv⟩ := ih
    rcases accept_eq_some hacc with ⟨hm, _⟩ | ⟨mac, _, _, _, hj, _, _⟩
    · rw [hm]
      exact ⟨hc, hl, hv⟩
    · obtain ⟨_, _, _, hp, hcl, hen, _⟩ := clientJoin_eq_some hj
      refine ⟨by rw [hp]; exact hc, by rw [hcl]; simpa using hl, ?_⟩
      rw [hen, hcl, hv]
      simp
  | leave m next identity _ hl ih =>
    obtain ⟨hc, hlen, hv⟩ := ih
    obtain ⟨_, _, c, _, hp, hcl, hen, _⟩ := clientLeave_eq_some hl
    refine ⟨by rw [hp]; exact hc, by rw [hcl]; simpa using hlen, ?_⟩
    rw [hen, hcl, hv]
    simp

/-- C7: in every master state reachable from `NewMaster` by join handshakes and
`clientLeave` steps, for every identity `i` in 0..capacity `IsEnabled(i)` is true exactly
when slot `clients[i]` is occupied, and false exactly when it is empty. -/
theorem liveness_matches_endpoint_table (capacity : Nat) (m : Master)
    (h : Reachable capacity m) (i : Int) (h0 : 0 ≤ i) (h1 : i ≤ capacity) :
    (m.positionManager.IsEnabled i = some true ↔ ∃ c, index m.clients i = some (some c)) ∧
    (m.positionManager.IsEnabled i = some false ↔ index m.clients i = some none) := by
  obtain ⟨_, hl, hv⟩ := reachable_wellFormed capacity m h
  have hlt : i.toNat < m.clients.length := by omega
  simp only [PositionManager.IsEnabled, hv, index_of_nonneg _ _ h0, List.getElem?_map,
    List.getElem?_eq_getElem hlt, Option.map]
  cases m.clients[i.toNat] <;> simp

theorem liveness_matches_endpoint_table_witness :
    (PositionManager.IsEnabled ⟨[false, true, false], []⟩ 1 = some true ↔
        ∃ c, index [none, some (client.mk ⟨1⟩ [2, 0, 0, 0, 0, 1]), none] 1 = some (some c)) ∧
      (PositionManager.IsEnabled ⟨[false, true, false], []⟩ 1 = some false ↔
        index [none, some (client.mk ⟨1⟩ [2, 0, 0, 0, 0, 1]), none] 1 = some none) :=
  liveness_matches_endpoint_table 2
    (Master.mk ⟨2⟩ [none, some ⟨⟨1⟩, [2, 0, 0, 0, 0, 1]⟩, none]
      [([2, 0, 0, 0, 0, 1], 1)] ⟨[false, true, false], []⟩)
    (Reachable.join (NewMaster 2)
      { master := Master.mk ⟨2⟩ [none, some ⟨⟨1⟩, [2, 0, 0, 0, 0, 1]⟩, none]
          [([2, 0, 0, 0, 0, 1], 1)] ⟨[false, true, false], []⟩
        sent := some { Address := some 1, Error := none }
        identity := some 1 }
      ⟨1⟩ (some [2, 0, 0, 0, 0, 1]) true Reachable.init (by decide))
    1 (by decide) (by decide)

/-! ## Frame classification -/

theorem isBroadcast_six (b0 b1 b2 b3 b4 b5 : Nat) :
    isBroadcast [b0, b1, b2, b3, b4, b5] =
      some (decide (b0 = 0xff ∧ b1 = 0xff ∧ b2 = 0xff ∧ b3 = 0xff ∧ b4 = 0xff ∧ b5 = 0xff)) := by
  by_cases h0 : b0 = 0xff <;> by_cases h1 : b1 = 0xff <;> by_cases h2 : b2 = 0xff <;>
    by_cases h3 : b3 = 0xff <;> by_cases h4 : b4 = 0xff <;> by_cases h5 : b5 = 0xff <;>
    simp [isBroadcast, index, h0, h1, h2, h3, h4, h5]

theorem isIPv4Multicast_six (b0 b1 b2 b3 b4 b5 : Nat) :
    isIPv4Multicast [b0, b1, b2, b3, b4, b5] =
      some (decide (b0 = 0x01 ∧ b1 = 0x00 ∧ b2 = 0x5e)) := by
  by_cases h0 : b0 = 0x01 <;> by_cases h1 : b1 = 0x00 <;> by_cases h2 : b2 = 0x5e <;>
    simp [isIPv4Multicast, index, h0, h1, h2]

/-- C9: for a 6-byte destination address `isBroadcast` is true exactly when all six bytes
are 0xff, `isIPv4Multicast` is true exactly when the first three bytes are 01:00:5e, and
one `frameHandler` iteration runs the broadcast branch when at least one of the two holds
and the unicast branch (the Address Reverse Table lookup) otherwise. -/
theorem frame_classification (addr : HardwareAddr) (hlen : addr.length = 6) :
    (∃ b, isBroadcast addr = some b ∧ (b = true ↔ addr = List.replicate 6 0xff)) ∧
    (∃ b, isIPv4Multicast addr = some b ∧ (b = true ↔ addr.take 3 = [0x01, 0x00, 0x5e])) ∧
    ∀ (september : September) (master : Master) (myIdentity : Int) (underlying : List Int)
      (buf : ReusableSlice), Destination buf.Slice = some addr →
      ((isBroadcast addr = some true ∨ isIPv4Multicast addr = some true) →
        frameHandlerStep september master myIdentity underlying buf =
          broadcastBranch september master myIdentity underlying buf) ∧
      (¬ (isBroadcast addr = some true ∨ isIPv4Multicast addr = some true) →
        frameHandlerStep september master myIdentity underlying buf =
          unicastBranch september master myIdentity underlying buf addr) := by
  match addr, hlen with
  | [b0, b1, b2, b3, b4, b5], _ =>
    refine ⟨⟨_, isBroadcast_six b0 b1 b2 b3 b4 b5, by simp [List.replicate]⟩,
      ⟨_, isIPv4Multicast_six b0 b1 b2 b3 b4 b5, by simp⟩, ?_⟩
    intro september master myIdentity underlying buf hdst
    have hb := isBroadcast_six b0 b1 b2 b3 b4 b5
    have hm := isIPv4Multicast_six b0 b1 b2 b3 b4 b5
    constructor
    · intro h
      unfold frameHandlerStep
      rw [hdst]
      simp only
      rcases h with h | h
      · rw [h]
      · rw [h]
        cases hbb : isBroadcast [b0, b1, b2, b3, b4, b5] with
        | none => rw [hbb] at hb; exact absurd hb (by simp)
        | some b => cases b <;> rfl
    · intro h
      have h1 : isBroadcast [b0, b1, b2, b3, b4, b5] = some false := by
        rw [hb] at h ⊢
        by_contra hne
        exact h (Or.inl (by simpa using hne))
      have h2 : isIPv4Multicast [b0, b1, b2, b3, b4, b5] = some false := by
        rw [hm] at h ⊢
        by_contra hne
        exact h (Or.inr (by simpa using hne))
      unfold frameHandlerStep
      rw [hdst]
      simp only
      rw [h1, h2]

theorem frame_classification_witness :
    (∃ b, isBroadcast [0x01, 0x00, 0x5e, 0, 0, 1] = some b ∧
      (b = true ↔ [0x01, 0x00, 0x5e, 0, 0, 1] = List.replicate 6 0xff)) ∧
    (∃ b, isIPv4Multicast [0x01, 0x00, 0x5e, 0, 0, 1] = some b ∧
      (b = true ↔ [0x01, 0x00, 0x5e, 0, 0, 1].take 3 = [0x01, 0x00, 0x5e])) :=
  ⟨(frame_classification [0x01, 0x00, 0x5e, 0, 0, 1] (by decide)).1,
    (frame_classification [0x01, 0x00, 0x5e, 0, 0, 1] (by decide)).2.1⟩

/-! ## Buffer ownership in one iteration of `frameHandler` -/

theorem countAddOwner_append (a b : List Call) :
    countAddOwner (a ++ b) = countAddOwner a + countAddOwner b := by
  simp [countAddOwner, List.countP_append]

theorem countDone_append (a b : List Call) :
    countDone (a ++ b) = countDone a + countDone b := by
  simp [countDone, List.countP_append]

theorem countWriteFrame_append (a b : List Call) :
    countWriteFrame (a ++ b) = countWriteFrame a + countWriteFrame b := by
  simp [countWriteFrame, List.countP_append]

theorem fanOut_counts (clients : List (Option client)) (buf : ReusableSlice)
    (recipients : List Int) (calls result : List Call)
    (h : fanOut clients buf recipients calls = some result) :
    countWriteFrame result + countAddOwner calls = countAddOwner result + countWriteFrame calls ∧
      countDone result = countDone calls := by
  induction recipients generalizing calls with
  | nil =>
    simp only [fanOut, Option.some.injEq] at h
    subst h
    exact ⟨by omega, rfl⟩
  | cons id rest ih =>
    unfold fanOut at h
    split at h
    · exact absurd h (by simp)
    · exact ih calls h
    · rename_i c _
      obtain ⟨h1, h2⟩ := ih _ h
      rw [countAddOwner_append, countWriteFrame_append] at h1
      rw [countDone_append] at h2
      have e1 : countAddOwner [Call.AddOwner buf, Call.WriteFrame id c.Link buf] = 1 := rfl
      have e2 : countWriteFrame [Call.AddOwner buf, Call.WriteFrame id c.Link buf] = 1 := rfl
      have e3 : countDone [Call.AddOwner buf, Call.WriteFrame id c.Link buf] = 0 := rfl
      exact ⟨by omega, by omega⟩

theorem broadcastBranch_balanced (september : September) (master : Master)
    (myIdentity : Int) (underlying : List Int) (buf : ReusableSlice) (calls : List Call)
    (u : List Int)
    (h : broadcastBranch september master myIdentity underlying buf = some (calls, u)) :
    countDone calls + countWriteFrame calls = 1 + countAddOwner calls := by
  unfold broadcastBranch at h
  split at h
  · exact absurd h (by simp)
  · split at h
    · exact absurd h (by simp)
    · split at h
      · exact absurd h (by simp)
      · rename_i fanned hf
        obtain ⟨h1, h2⟩ := fanOut_counts _ _ _ _ _ hf
        simp only [Option.some.injEq, Prod.mk.injEq] at h
        obtain ⟨hc, _⟩ := h
        subst hc
        rw [countAddOwner_append, countWriteFrame_append, countDone_append]
        have e1 : countAddOwner [Call.Done buf] = 0 := rfl
        have e2 : countWriteFrame [Call.Done buf] = 0 := rfl
        have e3 : countDone [Call.Done buf] = 1 := rfl
        have e4 : countAddOwner ([] : List Call) = 0 := rfl
        have e5 : countWriteFrame ([] : List Call) = 0 := rfl
        have e6 : countDone ([] : List Call) = 0 := rfl
        omega

theorem unicastBranch_balanced_or_unresolved (september : September) (master : Master)
    (myIdentity : Int) (underlying : List Int) (buf : ReusableSlice) (dst : HardwareAddr)
    (calls : List Call) (u : List Int)
    (h : unicastBranch september master myIdentity underlying buf dst = some (calls, u)) :
    countDone calls + countWriteFrame calls = 1 + countAddOwner calls ∨
      (master.addrReverse.Get dst = none ∧ calls = []) := by
  unfold unicastBranch at h
  split at h
  · left
    split at h
    · exact absurd h (by simp)
    · split at h
      · exact absurd h (by simp)
      · split at h
        · simp only [Option.some.injEq, Prod.mk.injEq] at h
          obtain ⟨hc, _⟩ := h
          subst hc
          simp [countAddOwner, countWriteFrame, countDone]
        · exact absurd h (by simp)
      · simp only [Option.some.injEq, Prod.mk.injEq] at h
        obtain ⟨hc, _⟩ := h
        subst hc
        simp [countAddOwner, countWriteFrame, countDone]
  · rename_i hget
    right
    split at h
    · exact absurd h (by simp)
    · simp only [Option.some.injEq, Prod.mk.injEq] at h
      exact ⟨hget, h.1.symm⟩

/-- In every iteration that returns, releases and hand-offs balance the grants, except
when the unicast destination is not in the Address Reverse Table: then nothing is called. -/
theorem frameHandlerStep_balanced_or_unresolved (september : September) (master : Master)
    (myIdentity : Int) (underlying : List Int) (buf : ReusableSlice) (calls : List Call)
    (u : List Int)
    (h : frameHandlerStep september master myIdentity underlying buf = some (calls, u)) :
    countDone calls + countWriteFrame calls = 1 + countAddOwner calls ∨
      (∃ dst, Destination buf.Slice = some dst ∧ master.addrReverse.Get dst = none ∧
        calls = []) := by
  unfold frameHandlerStep at h
  split at h
  · exact absurd h (by simp)
  · rename_i dst hdst
    split at h
    · exact absurd h (by simp)
    · exact Or.inl (broadcastBranch_balanced _ _ _ _ _ _ _ h)
    · split at h
      · exact absurd h (by simp)
      · exact Or.inl (broadcastBranch_balanced _ _ _ _ _ _ _ h)
      · rcases unicastBranch_balanced_or_unresolved _ _ _ _ _ _ _ _ h with hb | ⟨hg, hc⟩
        · exact Or.inl hb
        · exact Or.inr ⟨dst, hdst, hg, hc⟩

/-- C4 (the code at the failing input): endpoints 1 and 2 are joined and endpoint 1 sends
a unicast frame to an address nobody registered.  The iteration returns having made no
call at all: no `Done` and no hand-off stand against the initial grant. -/
theorem unresolved_unicast_never_releases :
    frameHandlerStep CreateSeptember
        (Master.mk ⟨2⟩
          [none, some ⟨⟨1⟩, [2, 0, 0, 0, 0, 1]⟩, some ⟨⟨2⟩, [2, 0, 0, 0, 0, 2]⟩]
          [([2, 0, 0, 0, 0, 2], 2), ([2, 0, 0, 0, 0, 1], 1)] ⟨[false, true, true], []⟩)
        1 [0, 0, 0]
        ⟨7, [2, 0, 0, 0, 0, 9, 2, 0, 0, 0, 0, 1, 8, 0, 5, 5]⟩ = some ([], [0, 0, 0]) ∧
      countDone [] + countWriteFrame [] = 0 ∧ 1 + countAddOwner [] = 1 := by
  decide

/-! ## Scenario A: unicast between two joined endpoints -/

/-- C10 (as stated, refuted): endpoints 1 and 2 join a fresh master of capacity 2 with
distinct hardware addresses, the second being ff:ff:ff:ff:ff:ff.  A frame from endpoint 1
whose destination is endpoint 2's hardware address goes through the broadcast branch:
endpoint 2 is handed the buffer after one `AddOwner`, and the sender calls `Done`. -/
theorem unicast_scenario_broadcast_address_adds_owner :
    (NewMaster 2).accept ⟨1⟩ (some [2, 0, 0, 0, 0, 1]) true =
        some { master := Master.mk ⟨2⟩ [none, some ⟨⟨1⟩, [2, 0, 0, 0, 0, 1]⟩, none]
                 [([2, 0, 0, 0, 0, 1], 1)] ⟨[false, true, false], []⟩
               sent := some { Address := some 1, Error := none }
               identity := some 1 } ∧
      (Master.mk ⟨2⟩ [none, some ⟨⟨1⟩, [2, 0, 0, 0, 0, 1]⟩, none]
          [([2, 0, 0, 0, 0, 1], 1)] ⟨[false, true, false], []⟩).accept ⟨2⟩
          (some [255, 255, 255, 255, 255, 255]) true =
        some { master := Master.mk ⟨2⟩
                 [none, some ⟨⟨1⟩, [2, 0, 0, 0, 0, 1]⟩,
                   some ⟨⟨2⟩, [255, 255, 255, 255, 255, 255]⟩]
                 [([255, 255, 255, 255, 255, 255], 2), ([2, 0, 0, 0, 0, 1], 1)]
                 ⟨[false, true, true], []⟩
               sent := some { Address := some 2, Error := none }
               identity := some 2 } ∧
      Destination [255, 255, 255, 255, 255, 255, 2, 0, 0, 0, 0, 1, 8, 0, 5, 5] =
        some [255, 255, 255, 255, 255, 255] ∧
      frameHandlerStep CreateSeptember
          (Master.mk ⟨2⟩
            [none, some ⟨⟨1⟩, [2, 0, 0, 0, 0, 1]⟩,
              some ⟨⟨2⟩, [255, 255, 255, 255, 255, 255]⟩]
            [([255, 255, 255, 255, 255, 255], 2), ([2, 0, 0, 0, 0, 1], 1)]
            ⟨[false, true, true], []⟩)
          1 [0, 0, 0]
          ⟨7, [255, 255, 255, 255, 255, 255, 2, 0, 0, 0, 0, 1, 8, 0, 5, 5]⟩ =
        some ([Call.AddOwner ⟨7, [255, 255, 255, 255, 255, 255, 2, 0, 0, 0, 0, 1, 8, 0, 5, 5]⟩,
               Call.WriteFrame 2 ⟨2⟩
                 ⟨7, [255, 255, 255, 255, 255, 255, 2, 0, 0, 0, 0, 1, 8, 0, 5, 5]⟩,
               Call.Done ⟨7, [255, 255, 255, 255, 255, 255, 2, 0, 0, 0, 0, 1, 8, 0, 5, 5]⟩],
              [2, 0, 0]) ∧
      countAddOwner
          [Call.AddOwner ⟨7, [255, 255, 255, 255, 255, 255, 2, 0, 0, 0, 0, 1, 8, 0, 5, 5]⟩,
           Call.WriteFrame 2 ⟨2⟩
             ⟨7, [255, 255, 255, 255, 255, 255, 2, 0, 0, 0, 0, 1, 8, 0, 5, 5]⟩,
           Call.Done ⟨7, [255, 255, 255, 255, 255, 255, 2, 0, 0, 0, 0, 1, 8, 0, 5, 5]⟩] = 1 := by
  decide

theorem accept_first_on_fresh (n : Nat) (l1 : Link) (a1 : HardwareAddr) :
    (NewMaster (n + 2)).accept l1 (some a1) true =
      some { master :=
               { addressPool := ⟨n + 2⟩
                 clients := none :: some ⟨l1, a1⟩ :: none :: List.replicate n none
                 addrReverse := [(a1, 1)]
                 positionManager := ⟨false :: true :: false :: List.replicate n false, []⟩ }
             sent := some { Address := some 1, Error := none }
             identity := some 1 } := by
  have hs : identitySearch (NewMaster (n + 2)).clients = 1 := by
    simp [NewMaster, identitySearch, identityLoop, List.replicate_succ]
  have hne : identitySearch (NewMaster (n + 2)).clients ≠
      ((NewMaster (n + 2)).clients.length : Int) := by
    rw [hs]
    simp [NewMaster]
    omega
  rw [accept_not_full _ _ _ _ (by rw [hs]) (by rw [hs]; simp [NewMaster]; omega) hne, hs]
  simp [NewMaster, NewNodeManager, Master.clientJoin, assign, PositionManager.Enable,
    PositionManager.notifyEnabledChanged, addressReverse.Add, addressReverse.Remove,
    newAddressReverse, List.replicate_succ]

theorem accept_second_on_fresh (n : Nat) (l1 l2 : Link) (a1 a2 : HardwareAddr)
    (hne : a1 ≠ a2) :
    (Master.mk ⟨n + 2⟩ (none :: some ⟨l1, a1⟩ :: none :: List.replicate n none)
        [(a1, 1)] ⟨false :: true :: false :: List.replicate n false, []⟩).accept
        l2 (some a2) true =
      some { master :=
               { addressPool := ⟨n + 2⟩
                 clients := none :: some ⟨l1, a1⟩ :: some ⟨l2, a2⟩ :: List.replicate n none
                 addrReverse := [(a2, 2), (a1, 1)]
                 positionManager := ⟨false :: true :: true :: List.replicate n false, []⟩ }
             sent := some { Address := some 2, Error := none }
             identity := some 2 } := by
  have hs : identitySearch (none :: some (client.mk l1 a1) :: none :: List.replicate n none) = 2 := by
    simp [identitySearch, identityLoop]
  have hnf : identitySearch (Master.mk ⟨n + 2⟩
      (none :: some ⟨l1, a1⟩ :: none :: List.replicate n none)
      [(a1, 1)] ⟨false :: true :: false :: List.replicate n false, []⟩).clients ≠
      ((Master.mk ⟨n + 2⟩ (none :: some ⟨l1, a1⟩ :: none :: List.replicate n none)
      [(a1, 1)] ⟨false :: true :: false :: List.replicate n false, []⟩).clients.length : Int) := by
    simp only [hs]
    simp
    omega
  rw [accept_not_full _ _ _ _ (by simp only [hs]; decide)
    (by simp only [hs]; push_cast; omega) hnf]
  simp only [hs]
  simp [Master.clientJoin, assign, PositionManager.Enable,
    PositionManager.notifyEnabledChanged, addressReverse.Add, addressReverse.Remove, hne]

/-- C10 (amended): on a fresh master of capacity at least 2 with the pass-through policy,
two endpoints join with distinct hardware addresses and receive identities 1 and 2.  If
endpoint 2's address is neither the broadcast address nor 01:00:5e-prefixed, one
`frameHandler` iteration for a frame from endpoint 1 with that destination, on which
`frame.Payload()` returns (the frame holds its whole header, VLAN tags included), makes
exactly one call: the hand-off of this very buffer to endpoint 2's writer; no `AddOwner`,
no `Done`, nothing to any other endpoint. -/
theorem unicast_scenario_hands_buffer_to_destination (capacity : Nat)
    (hcap : 2 ≤ capacity) (l1 l2 : Link) (a1 a2 : HardwareAddr) (hne : a1 ≠ a2)
    (hb : isBroadcast a2 = some false) (hm : isIPv4Multicast a2 = some false)
    (underlying : List Int) (buf : ReusableSlice)
    (hdst : Destination buf.Slice = some a2) (payload : List Nat)
    (hp : Payload buf.Slice = some payload) :
    ∃ m1 m2,
      (NewMaster capacity).accept l1 (some a1) true =
        some { master := m1, sent := some { Address := some 1, Error := none },
               identity := some 1 } ∧
      m1.accept l2 (some a2) true =
        some { master := m2, sent := some { Address := some 2, Error := none },
               identity := some 2 } ∧
      frameHandlerStep CreateSeptember m2 1 underlying buf =
        some ([Call.WriteFrame 2 l2 buf], underlying) := by
  obtain ⟨n, rfl⟩ : ∃ n, capacity = n + 2 := ⟨capacity - 2, by omega⟩
  refine ⟨_, _, accept_first_on_fresh n l1 a1, accept_second_on_fresh n l1 l2 a1 a2 hne, ?_⟩
  simp [frameHandlerStep, hdst, hb, hm, unicastBranch, addressReverse.Get, hp,
    CreateSeptember, SendUnicast, isToBeDelivered, PositionManager.IsEnabled, index]

theorem unicast_scenario_hands_buffer_to_destination_witness :
    ∃ m1 m2,
      (NewMaster 3).accept ⟨1⟩ (some [2, 0, 0, 0, 0, 1]) true =
        some { master := m1, sent := some { Address := some 1, Error := none },
               identity := some 1 } ∧
      m1.accept ⟨2⟩ (some [2, 0, 0, 0, 0, 2]) true =
        some { master := m2, sent := some { Address := some 2, Error := none },
               identity := some 2 } ∧
      frameHandlerStep CreateSeptember m2 1 [0, 0, 0, 0]
          ⟨7, [2, 0, 0, 0, 0, 2, 2, 0, 0, 0, 0, 1, 8, 0, 5, 5]⟩ =
        some ([Call.WriteFrame 2 ⟨2⟩ ⟨7, [2, 0, 0, 0, 0, 2, 2, 0, 0, 0, 0, 1, 8, 0, 5, 5]⟩],
              [0, 0, 0, 0]) :=
  unicast_scenario_hands_buffer_to_destination 3 (by decide) ⟨1⟩ ⟨2⟩
    [2, 0, 0, 0, 0, 1] [2, 0, 0, 0, 0, 2] (by decide) (by decide) (by decide)
    [0, 0, 0, 0] ⟨7, [2, 0, 0, 0, 0, 2, 2, 0, 0, 0, 0, 1, 8, 0, 5, 5]⟩ (by decide)
    [5, 5] (by decide)

/-! ## Enable, Disable and IsEnabled -/

theorem Enable_eq_some {p q : PositionManager} {i : Int} (h : p.Enable i = some q) :
    0 ≤ i ∧ i < p.isEnabled.length ∧ q.isEnabled = p.isEnabled.set i.toNat true ∧
      q.enabledChanged = p.enabledChanged.map (fun l => l ++ [q.Enabled]) := by
  unfold PositionManager.Enable at h
  split at h
  · exact absurd h (by simp)
  · rename_i v hv
    obtain ⟨h0, h1, h2⟩ := assign_eq_some hv
    have hq := (Option.some.inj h).symm
    subst hq
    subst h2
    exact ⟨h0, by omega, rfl, rfl⟩

theorem Disable_eq_some {p q : PositionManager} {i : Int} (h : p.Disable i = some q) :
    0 ≤ i ∧ i < p.isEnabled.length ∧ q.isEnabled = p.isEnabled.set i.toNat false ∧
      q.enabledChanged = p.enabledChanged.map (fun l => l ++ [q.Enabled]) := by
  unfold PositionManager.Disable at h
  split at h
  · exact absurd h (by simp)
  · rename_i v hv
    obtain ⟨h0, h1, h2⟩ := assign_eq_some hv
    have hq := (Option.some.inj h).symm
    subst hq
    subst h2
    exact ⟨h0, by omega, rfl, rfl⟩

theorem Enable_inRange (p : PositionManager) (i : Int) (h0 : 0 ≤ i)
    (h1 : i < p.isEnabled.length) : ∃ q, p.Enable i = some q := by
  simp only [PositionManager.Enable, assign_inRange _ _ _ h0 h1]
  exact ⟨_, rfl⟩

theorem Disable_inRange (p : PositionManager) (i : Int) (h0 : 0 ≤ i)
    (h1 : i < p.isEnabled.length) : ∃ q, p.Disable i = some q := by
  simp only [PositionManager.Disable, assign_inRange _ _ _ h0 h1]
  exact ⟨_, rfl⟩

theorem IsEnabled_after_Enable {p q : PositionManager} {i : Int} (h : p.Enable i = some q)
    (j : Int) : q.IsEnabled j = if j = i then some true else p.IsEnabled j := by
  obtain ⟨h0, h1, h2, _⟩ := Enable_eq_some h
  simp only [PositionManager.IsEnabled, h2]
  exact index_set _ _ _ _ h0 h1

theorem IsEnabled_after_Disable {p q : PositionManager} {i : Int} (h : p.Disable i = some q)
    (j : Int) : q.IsEnabled j = if j = i then some false else p.IsEnabled j := by
  obtain ⟨h0, h1, h2, _⟩ := Disable_eq_some h
  simp only [PositionManager.IsEnabled, h2]
  exact index_set _ _ _ _ h0 h1

/-- A value of `IsEnabled(i)` survives every sequence of in-range calls that does not
set index `i` to the other value. -/
theorem run_keeps_IsEnabled (p : PositionManager) (i : Int) (b : Bool)
    (ops : List TrackerCall) (hb : p.IsEnabled i = some b)
    (hr : ∀ c ∈ ops, 0 ≤ c.idx ∧ c.idx < p.isEnabled.length)
    (hk : ∀ c ∈ ops, c ≠ (if b then TrackerCall.Disable i else TrackerCall.Enable i)) :
    ∃ r, p.run ops = some r ∧ r.IsEnabled i = some b := by
  induction ops generalizing p with
  | nil => exact ⟨p, rfl, hb⟩
  | cons c rest ih =>
    obtain ⟨hc0, hc1⟩ := hr c (List.mem_cons_self c rest)
    have hck := hk c (List.mem_cons_self c rest)
    obtain ⟨q, hq, hlen, _⟩ := call_inRange p c hc0 hc1
    have hqb : q.IsEnabled i = some b := by
      cases c with
      | Enable j =>
        simp only [PositionManager.call] at hq
        rw [IsEnabled_after_Enable hq]
        by_cases hij : i = j
        · subst hij
          cases b
          · simp at hck
          · simp
        · simp [hij, hb]
      | Disable j =>
        simp only [PositionManager.call] at hq
        rw [IsEnabled_after_Disable hq]
        by_cases hij : i = j
        · subst hij
          cases b
          · simp
          · simp at hck
        · simp [hij, hb]
    obtain ⟨r, hr2, hrb⟩ := ih q hqb
      (fun d hd => by rw [hlen]; exact hr d (List.mem_cons_of_mem c hd))
      (fun d hd => hk d (List.mem_cons_of_mem c hd))
    exact ⟨r, by simp [PositionManager.run, hq, hr2], hrb⟩

theorem IsEnabled_NewNodeManager (size : Nat) (i : Int) (h0 : 0 ≤ i) (h1 : i < size) :
    (NewNodeManager size).IsEnabled i = some false := by
  have hlt : i.toNat < size := by omega
  simp [PositionManager.IsEnabled, NewNodeManager, index_of_nonneg _ _ h0, hlt]

/-- C12: for an in-range index `i`, after `Enable(i)` and any further in-range calls none
of which is `Disable(i)`, `IsEnabled(i)` is true; after `Disable(i)` and any further
in-range calls none of which is `Enable(i)` it is false; and it is false in a freshly
constructed tracker of the same size, also after in-range calls none of which is
`Enable(i)`. -/
theorem IsEnabled_between_Enable_and_Disable (p : PositionManager) (i : Int)
    (ops : List TrackerCall) (hi : 0 ≤ i ∧ i < p.isEnabled.length)
    (hr : ∀ c ∈ ops, 0 ≤ c.idx ∧ c.idx < p.isEnabled.length) :
    ((∀ c ∈ ops, c ≠ TrackerCall.Disable i) →
      ∃ q r, p.Enable i = some q ∧ q.run ops = some r ∧ r.IsEnabled i = some true) ∧
    ((∀ c ∈ ops, c ≠ TrackerCall.Enable i) →
      ∃ q r, p.Disable i = some q ∧ q.run ops = some r ∧ r.IsEnabled i = some false) ∧
    (NewNodeManager p.isEnabled.length).IsEnabled i = some false ∧
    ((∀ c ∈ ops, c ≠ TrackerCall.Enable i) →
      ∃ r, (NewNodeManager p.isEnabled.length).run ops = some r ∧
        r.IsEnabled i = some false) := by
  refine ⟨?_, ?_, IsEnabled_NewNodeManager _ i hi.1 hi.2, ?_⟩
  · intro hk
    obtain ⟨q, hq⟩ := Enable_inRange p i hi.1 hi.2
    have hlen : q.isEnabled.length = p.isEnabled.length := by
      rw [(Enable_eq_some hq).2.2.1]; simp
    obtain ⟨r, hr2, hrb⟩ := run_keeps_IsEnabled q i true ops
      (by rw [IsEnabled_after_Enable hq]; simp)
      (fun c hc => by rw [hlen]; exact hr c hc) (fun c hc => by simpa using hk c hc)
    exact ⟨q, r, hq, hr2, hrb⟩
  · intro hk
    obtain ⟨q, hq⟩ := Disable_inRange p i hi.1 hi.2
    have hlen : q.isEnabled.length = p.isEnabled.length := by
      rw [(Disable_eq_some hq).2.2.1]; simp
    obtain ⟨r, hr2, hrb⟩ := run_keeps_IsEnabled q i false ops
      (by rw [IsEnabled_after_Disable hq]; simp)
      (fun c hc => by rw [hlen]; exact hr c hc) (fun c hc => by simpa using hk c hc)
    exact ⟨q, r, hq, hr2, hrb⟩
  · intro hk
    exact run_keeps_IsEnabled _ i false ops (IsEnabled_NewNodeManager _ i hi.1 hi.2)
      (fun c hc => by simpa [NewNodeManager] using hr c hc)
      (fun c hc => by simpa using hk c hc)

theorem IsEnabled_between_Enable_and_Disable_witness :
    ∃ q r, PositionManager.Enable ⟨[false, false, false], []⟩ 1 = some q ∧
      q.run [TrackerCall.Enable 2, TrackerCall.Disable 2, TrackerCall.Enable 1] = some r ∧
      r.IsEnabled 1 = some true :=
  (IsEnabled_between_Enable_and_Disable ⟨[false, false, false], []⟩ 1
    [TrackerCall.Enable 2, TrackerCall.Disable 2, TrackerCall.Enable 1]
    (by decide) (by decide)).1 (by decide)

/-- C13: for an in-range index `i`, a second `Disable(i)` right after the first leaves
the liveness vector and the value of `Enabled()` as the first left them; it appends one
more notification to every observer log, carrying the same list as the first. -/
theorem Disable_twice_same_state (p : PositionManager) (i : Int)
    (hi : 0 ≤ i ∧ i < p.isEnabled.length) :
    ∃ q r, p.Disable i = some q ∧ q.Disable i = some r ∧
      r.isEnabled = q.isEnabled ∧ r.Enabled = q.Enabled ∧
      q.enabledChanged = p.enabledChanged.map (fun l => l ++ [q.Enabled]) ∧
      r.enabledChanged = q.enabledChanged.map (fun l => l ++ [q.Enabled]) := by
  obtain ⟨q, hq⟩ := Disable_inRange p i hi.1 hi.2
  obtain ⟨_, _, hqv, hql⟩ := Disable_eq_some hq
  have hlen : q.isEnabled.length = p.isEnabled.length := by rw [hqv]; simp
  obtain ⟨r, hr⟩ := Disable_inRange q i hi.1 (by rw [hlen]; exact hi.2)
  obtain ⟨_, _, hrv, hrl⟩ := Disable_eq_some hr
  have hv : r.isEnabled = q.isEnabled := by
    rw [hrv, hqv]
    simp
  have he : r.Enabled = q.Enabled := by
    simp only [PositionManager.Enabled, PositionManager.calculateEnabled, hv]
  exact ⟨q, r, hq, hr, hv, he, hql, by rw [hrl, he]⟩

theorem Disable_twice_same_state_witness :
    ∃ q r, PositionManager.Disable ⟨[false, true, true], [[]]⟩ 1 = some q ∧
      q.Disable 1 = some r ∧
      r.isEnabled = q.isEnabled ∧ r.Enabled = q.Enabled ∧
      q.enabledChanged =
        (PositionManager.mk [false, true, true] [[]]).enabledChanged.map
          (fun l => l ++ [q.Enabled]) ∧
      r.enabledChanged = q.enabledChanged.map (fun l => l ++ [q.Enabled]) :=
  Disable_twice_same_state ⟨[false, true, true], [[]]⟩ 1 (by decide)

/-- C16: with `underlying` at least as long as the liveness vector, the slice the
pass-through `SendBroadcast` returns is the prefix `underlying[:count]` of `underlying`
as the call leaves it, `count` being the number of recipients; `underlying` keeps its
length and every element at an index from `count` on.  (The call only reads the tracker,
through `Enabled()`.) -/
theorem SendBroadcast_returns_prefix_of_underlying (p : PositionManager)
    (source size : Int) (underlying : List Int)
    (h : p.isEnabled.length ≤ underlying.length) :
    ∃ recipients u, SendBroadcast p source size underlying = some (recipients, u) ∧
      recipients = u.take recipients.length ∧
      u.length = underlying.length ∧
      recipients.length ≤ underlying.length ∧
      ∀ j : Nat, recipients.length ≤ j → u[j]? = underlying[j]? := by
  have hlen : p.Enabled.length ≤ p.isEnabled.length :=
    length_calculateEnabledLoop p.isEnabled 0
  have hf : (p.Enabled.filter (fun i => decide (i ≠ source))).length ≤ p.Enabled.length :=
    List.length_filter_le _ _
  refine ⟨_, _, SendBroadcast_eq p source size underlying h, ?_, ?_, by omega, ?_⟩
  · simp
  · rw [List.length_append, List.length_drop]
    omega
  · intro j hj
    rw [List.getElem?_append_right hj, List.getElem?_drop]
    congr 1
    omega

theorem SendBroadcast_returns_prefix_of_underlying_witness :
    ∃ recipients u,
      SendBroadcast ⟨[false, true, true, true], []⟩ 2 64 [9, 8, 7, 6] = some (recipients, u) ∧
      recipients = u.take recipients.length ∧
      u.length = [9, 8, 7, 6].length ∧
      recipients.length ≤ [9, 8, 7, 6].length ∧
      ∀ j : Nat, recipients.length ≤ j → u[j]? = [9, 8, 7, 6][j]? :=
  SendBroadcast_returns_prefix_of_underlying ⟨[false, true, true, true], []⟩ 2 64
    [9, 8, 7, 6] (by decide)

/-! ## The leave sequence -/

theorem clientLeave_eq_leaveSequence (master : Master) (identity : Int) :
    master.clientLeave identity = master.leaveSequence identity := by
  unfold Master.clientLeave Master.leaveSequence Master.removeMapping Master.clearSlot
    Master.disableIdentity
  cases h1 : index master.clients identity with
  | none => rfl
  | some slot =>
    cases slot with
    | none => rfl
    | some c =>
      simp only
      cases h2 : assign master.clients identity none with
      | none => rfl
      | some clients =>
        cases h3 : master.positionManager.Disable identity with
        | none => simp only [h3]
        | some pm => simp only [h3]

theorem Get_Remove_self (t : addressReverse) (addr : HardwareAddr) :
    (t.Remove addr).Get addr = none := by
  have h : (t.Remove addr).find? (fun e => decide (e.1 = addr)) = none := by
    rw [List.find?_eq_none]
    intro x hx
    simp only [addressReverse.Remove, List.mem_filter] at hx
    simpa using hx.2
  simp only [addressReverse.Get, h]

/-- C14: `clientLeave(identity, err)` for an occupied slot is the leave sequence of the
spec: remove the mapping of the endpoint's hardware address, clear the slot, disable the
identity, in this order.  It returns, and afterwards the lookup of that address is not
found, the slot is empty, `IsEnabled(identity)` is false, and every other slot and every
other liveness entry is as before. -/
theorem clientLeave_effect (master : Master) (identity : Int) (c : client)
    (hc : index master.clients identity = some (some c))
    (hv : identity < master.positionManager.isEnabled.length) :
    ∃ next, master.clientLeave identity = some next ∧
      master.leaveSequence identity = some next ∧
      next.addrReverse = master.addrReverse.Remove c.Addr ∧
      next.addrReverse.Get c.Addr = none ∧
      index next.clients identity = some none ∧
      next.positionManager.IsEnabled identity = some false ∧
      (∀ j : Int, j ≠ identity → index next.clients j = index master.clients j) ∧
      (∀ j : Int, j ≠ identity →
        next.positionManager.IsEnabled j = master.positionManager.IsEnabled j) := by
  have h0 : 0 ≤ identity := by
    by_contra hneg
    rw [index_neg _ _ (by omega)] at hc
    exact absurd hc (by simp)
  have h1 : identity < master.clients.length := by
    rw [index_of_nonneg _ _ h0] at hc
    have := (List.getElem?_eq_some.mp hc).1
    omega
  obtain ⟨pm, hpm⟩ := Disable_inRange master.positionManager identity h0 hv
  have hl : master.clientLeave identity = some
      { master with
        addrReverse := master.addrReverse.Remove c.Addr
        clients := master.clients.set identity.toNat none
        positionManager := pm } := by
    simp only [Master.clientLeave, hc, assign_inRange _ _ _ h0 h1, hpm]
  refine ⟨_, hl, by rw [← clientLeave_eq_leaveSequence]; exact hl, rfl,
    Get_Remove_self _ _, ?_, ?_, ?_, ?_⟩
  · simp only
    rw [index_set _ _ _ _ h0 h1]
    simp
  · simp only
    rw [IsEnabled_after_Disable hpm]
    simp
  · intro j hj
    simp only
    rw [index_set _ _ _ _ h0 h1]
    simp [hj]
  · intro j hj
    simp only
    rw [IsEnabled_after_Disable hpm]
    simp [hj]

theorem clientLeave_effect_witness :
    ∃ next, (Master.mk ⟨2⟩
        [none, some ⟨⟨1⟩, [2, 0, 0, 0, 0, 1]⟩, some ⟨⟨2⟩, [2, 0, 0, 0, 0, 2]⟩]
        [([2, 0, 0, 0, 0, 2], 2), ([2, 0, 0, 0, 0, 1], 1)]
        ⟨[false, true, true], []⟩).clientLeave 2 = some next ∧
      next = Master.mk ⟨2⟩ [none, some ⟨⟨1⟩, [2, 0, 0, 0, 0, 1]⟩, none]
        [([2, 0, 0, 0, 0, 1], 1)] ⟨[false, true, false], []⟩ :=
  have h := clientLeave_effect
    (Master.mk ⟨2⟩
      [none, some ⟨⟨1⟩, [2, 0, 0, 0, 0, 1]⟩, some ⟨⟨2⟩, [2, 0, 0, 0, 0, 2]⟩]
      [([2, 0, 0, 0, 0, 2], 2), ([2, 0, 0, 0, 0, 1], 1)] ⟨[false, true, true], []⟩)
    2 ⟨⟨2⟩, [2, 0, 0, 0, 0, 2]⟩ (by decide) (by decide)
  ⟨_, by decide, h.elim (fun _ _ => rfl)⟩

/-! ## Invariants of the reachable states: slot 0 and the Address Reverse Table -/

theorem enabled_iff_occupied (m : Master)
    (hv : m.positionManager.isEnabled = m.clients.map Option.isSome) (i : Int) :
    m.positionManager.IsEnabled i = some true ↔ ∃ c, index m.clients i = some (some c) := by
  by_cases h0 : 0 ≤ i
  · simp only [PositionManager.IsEnabled, hv, index_of_nonneg _ _ h0, List.getElem?_map]
    cases m.clients[i.toNat]? with
    | none => simp
    | some slot => cases slot <;> simp
  · simp [PositionManager.IsEnabled, index_neg _ _ (show i < 0 by omega)]

theorem reachable_slot_zero (capacity : Nat) (m : Master) (h : Reachable capacity m) :
    index m.clients 0 = some none := by
  induction h with
  | init => simp [NewMaster, index, List.replicate_succ]
  | join m o link req sendOk hm hacc ih =>
    rcases accept_eq_some hacc with ⟨hm2, _⟩ | ⟨mac, _, _, _, hj, _, _⟩
    · rw [hm2]
      exact ih
    · obtain ⟨h0, h1, _, _, hcl, _, _⟩ := clientJoin_eq_some hj
      obtain ⟨_, hl, _⟩ := reachable_wellFormed capacity m hm
      have hs := (identitySearch_spec m.clients capacity hl).1
      rw [hcl, index_set _ _ _ _ h0 (by omega)]
      rw [if_neg (by omega)]
      exact ih
  | leave m next identity _ hl ih =>
    obtain ⟨h0, h1, c, _, _, hcl, _, _⟩ := clientLeave_eq_some hl
    rw [hcl, index_set _ _ _ _ h0 (by omega)]
    by_cases hz : (0 : Int) = identity
    · simp [hz]
    · simp [hz, ih]

theorem mem_of_Get {t : addressReverse} {addr : HardwareAddr} {identity : Int}
    (h : t.Get addr = some identity) : (addr, identity) ∈ t := by
  unfold addressReverse.Get at h
  split at h
  · exact absurd h (by simp)
  · rename_i e he
    have h1 := List.mem_of_find?_eq_some he
    have h2 := List.find?_some he
    simp only [decide_eq_true_eq] at h2
    have h3 := Option.some.inj h
    have : e = (addr, identity) := by
      rw [← h2, ← h3]
    rw [← this]
    exact h1

theorem reachable_reverse_sound (capacity : Nat) (m : Master) (h : Reachable capacity m) :
    ∀ e ∈ m.addrReverse, 1 ≤ e.2 ∧ e.2 ≤ capacity ∧
      ∃ c, index m.clients e.2 = some (some c) ∧ c.Addr = e.1 := by
  induction h with
  | init => simp [NewMaster, newAddressReverse]
  | join m o link req sendOk hm hacc ih =>
    rcases accept_eq_some hacc with ⟨hm2, _⟩ | ⟨mac, _, _, hne, hj, _, _⟩
    · rw [hm2]
      exact ih
    · obtain ⟨h0, h1, _, _, hcl, _, hrev⟩ := clientJoin_eq_some hj
      obtain ⟨_, hl, _⟩ := reachable_wellFormed capacity m hm
      obtain ⟨hs1, hs2, _, hs4⟩ := identitySearch_spec m.clients capacity hl
      have hle : identitySearch m.clients ≤ capacity := by
        rw [hl] at hne
        push_cast at hne
        omega
      have hempty := hs4 hle
      intro e he
      rw [hrev] at he
      simp only [addressReverse.Add, List.mem_cons] at he
      rcases he with he | he
      · subst he
        refine ⟨hs1, hle, ⟨link, mac⟩, ?_, rfl⟩
        rw [hcl, index_set _ _ _ _ h0 (by omega)]
        simp
      · simp only [addressReverse.Remove, List.mem_filter] at he
        obtain ⟨c, hc1, hc2⟩ := (ih e he.1).2.2
        refine ⟨(ih e he.1).1, (ih e he.1).2.1, c, ?_, hc2⟩
        rw [hcl, index_set _ _ _ _ h0 (by omega)]
        have hdiff : e.2 ≠ identitySearch m.clients := by
          intro heq
          rw [heq, hempty] at hc1
          exact absurd hc1 (by simp)
        simp [hdiff, hc1]
  | leave m next identity _ hl ih =>
    obtain ⟨h0, h1, c, hc, _, hcl, _, hrev⟩ := clientLeave_eq_some hl
    intro e he
    rw [hrev] at he
    simp only [addressReverse.Remove, List.mem_filter, decide_eq_true_eq] at he
    obtain ⟨d, hd1, hd2⟩ := (ih e he.1).2.2
    refine ⟨(ih e he.1).1, (ih e he.1).2.1, d, ?_, hd2⟩
    rw [hcl, index_set _ _ _ _ h0 (by omega)]
    have hdiff : e.2 ≠ identity := by
      intro heq
      rw [heq, hc] at hd1
      have : c = d := Option.some.inj (Option.some.inj hd1)
      rw [this] at he
      exact he.2 hd2.symm
    simp [hdiff, hd1]

/-- C18: in every master state reachable from `NewMaster` by join handshakes (also with
a hardware address already in use) and `clientLeave` steps, whatever `Get` returns is
sound: the identity lies in 1..capacity, its slot is occupied by an endpoint with that
very address, and it is enabled.  Hence the unicast branch, run in such a state on a
frame on which `frame.Payload()` returns and with a policy that answers, returns: it
never reads an empty slot. -/
theorem reverse_table_entries_sound (capacity : Nat) (m : Master)
    (h : Reachable capacity m) :
    (∀ (mac : HardwareAddr) (identity : Int), m.addrReverse.Get mac = some identity →
      1 ≤ identity ∧ identity ≤ capacity ∧
      (∃ c, index m.clients identity = some (some c) ∧ c.Addr = mac) ∧
      m.positionManager.IsEnabled identity = some true) ∧
    ∀ (september : September) (myIdentity : Int) (underlying : List Int)
      (buf : ReusableSlice) (dst : HardwareAddr) (payload : List Nat),
      Payload buf.Slice = some payload →
      (∀ dstID, m.addrReverse.Get dst = some dstID →
        ∃ b, september.SendUnicast m.positionManager myIdentity dstID
          (payload.length : Int) = some b) →
      ∃ r, unicastBranch september m myIdentity underlying buf dst = some r := by
  have hsound : ∀ (mac : HardwareAddr) (identity : Int),
      m.addrReverse.Get mac = some identity →
      1 ≤ identity ∧ identity ≤ capacity ∧
      (∃ c, index m.clients identity = some (some c) ∧ c.Addr = mac) ∧
      m.positionManager.IsEnabled identity = some true := by
    intro mac identity hget
    obtain ⟨h1, h2, c, hc1, hc2⟩ := reachable_reverse_sound capacity m h _ (mem_of_Get hget)
    exact ⟨h1, h2, ⟨c, hc1, hc2⟩,
      (enabled_iff_occupied m (reachable_wellFormed capacity m h).2.2 identity).mpr ⟨c, hc1⟩⟩
  refine ⟨hsound, ?_⟩
  intro september myIdentity underlying buf dst payload hp hpol
  unfold unicastBranch
  cases hget : m.addrReverse.Get dst with
  | none => simp [hp]
  | some dstID =>
    obtain ⟨b, hb⟩ := hpol dstID hget
    obtain ⟨_, _, ⟨c, hc, _⟩, _⟩ := hsound dst dstID hget
    simp only [hp, hb]
    cases b
    · exact ⟨_, rfl⟩
    · simp only [hc]
      exact ⟨_, rfl⟩

theorem reverse_table_entries_sound_witness :
    (1 : Int) ≤ 2 ∧ (2 : Int) ≤ (2 : Nat) ∧
      (∃ c, index (Master.mk ⟨2⟩
          [none, some ⟨⟨1⟩, [2, 0, 0, 0, 0, 1]⟩, some ⟨⟨2⟩, [2, 0, 0, 0, 0, 1]⟩]
          [([2, 0, 0, 0, 0, 1], 2)] ⟨[false, true, true], []⟩).clients 2 = some (some c) ∧
        c.Addr = [2, 0, 0, 0, 0, 1]) ∧
      (Master.mk ⟨2⟩
          [none, some ⟨⟨1⟩, [2, 0, 0, 0, 0, 1]⟩, some ⟨⟨2⟩, [2, 0, 0, 0, 0, 1]⟩]
          [([2, 0, 0, 0, 0, 1], 2)] ⟨[false, true, true], []⟩).positionManager.IsEnabled 2 =
        some true :=
  (reverse_table_entries_sound 2
    (Master.mk ⟨2⟩
      [none, some ⟨⟨1⟩, [2, 0, 0, 0, 0, 1]⟩, some ⟨⟨2⟩, [2, 0, 0, 0, 0, 1]⟩]
      [([2, 0, 0, 0, 0, 1], 2)] ⟨[false, true, true], []⟩)
    (Reachable.join
      (Master.mk ⟨2⟩ [none, some ⟨⟨1⟩, [2, 0, 0, 0, 0, 1]⟩, none]
        [([2, 0, 0, 0, 0, 1], 1)] ⟨[false, true, false], []⟩)
      { master := Master.mk ⟨2⟩
          [none, some ⟨⟨1⟩, [2, 0, 0, 0, 0, 1]⟩, some ⟨⟨2⟩, [2, 0, 0, 0, 0, 1]⟩]
          [([2, 0, 0, 0, 0, 1], 2)] ⟨[false, true, true], []⟩
        sent := some { Address := some 2, Error := none }
        identity := some 2 }
      ⟨2⟩ (some [2, 0, 0, 0, 0, 1]) true
      (Reachable.join (NewMaster 2)
        { master := Master.mk ⟨2⟩ [none, some ⟨⟨1⟩, [2, 0, 0, 0, 0, 1]⟩, none]
            [([2, 0, 0, 0, 0, 1], 1)] ⟨[false, true, false], []⟩
          sent := some { Address := some 1, Error := none }
          identity := some 1 }
        ⟨1⟩ (some [2, 0, 0, 0, 0, 1]) true Reachable.init (by decide))
      (by decide))).1 [2, 0, 0, 0, 0, 1] 2 (by decide)

/-! ## Reuse of identities -/

/-- C15: in a reachable master state, once `clientLeave(i)` has completed, the identity
search of the next join yields an identity between 1 and `i`, exactly `i` when every slot
in 1..i-1 is occupied, and a join whose response is sent registers that identity; and
while slot `i` is occupied no join handshake registers `i`. -/
theorem identity_reused_after_leave (capacity : Nat) (m : Master)
    (hr : Reachable capacity m) (i : Int) :
    (∀ next, m.clientLeave i = some next →
      1 ≤ identitySearch next.clients ∧ identitySearch next.clients ≤ i ∧
      ((∀ j : Int, 1 ≤ j → j < i → index next.clients j ≠ some none) →
        identitySearch next.clients = i) ∧
      ∀ (link : Link) (mac : HardwareAddr), ∃ joined,
        next.accept link (some mac) true =
          some { master := joined
                 sent := some { Address := some (identitySearch next.clients), Error := none }
                 identity := some (identitySearch next.clients) }) ∧
    ((∃ c, index m.clients i = some (some c)) →
      identitySearch m.clients ≠ i ∧
      ∀ (link : Link) (req : Option HardwareAddr) (sendOk : Bool) (o : JoinOutcome),
        m.accept link req sendOk = some o → o.identity ≠ some i) := by
  obtain ⟨hcap, hlen, hv⟩ := reachable_wellFormed capacity m hr
  have hzero := reachable_slot_zero capacity m hr
  constructor
  · intro next hl
    have hrn : Reachable capacity next := Reachable.leave m next i hr hl
    obtain ⟨hcapn, hlenn, hvn⟩ := reachable_wellFormed capacity next hrn
    obtain ⟨h0, h1, c, hc, _, hcl, _, _⟩ := clientLeave_eq_some hl
    have hi1 : 1 ≤ i := by
      by_contra hlt
      have : i = 0 := by omega
      rw [this, hzero] at hc
      exact absurd hc (by simp)
    have hempty : index next.clients i = some none := by
      rw [hcl, index_set _ _ _ _ h0 (by omega)]
      simp
    obtain ⟨hs1, hs2, hs3, hs4⟩ := identitySearch_spec next.clients capacity hlenn
    have hki : identitySearch next.clients ≤ i := by
      by_contra hgt
      exact hs3 i hi1 (by omega) hempty
    have hkc : identitySearch next.clients ≤ capacity := by omega
    refine ⟨hs1, hki, ?_, ?_⟩
    · intro hocc
      by_contra hne
      exact hocc _ hs1 (by omega) (hs4 hkc)
    · intro link mac
      have hne : identitySearch next.clients ≠ (next.clients.length : Int) := by
        rw [hlenn]; push_cast; omega
      have hlv : next.positionManager.isEnabled.length = capacity + 1 := by
        rw [hvn]; simpa using hlenn
      obtain ⟨joined, hj⟩ := clientJoin_inRange next (identitySearch next.clients) mac link
        (by omega) (by rw [hlenn]; push_cast; omega) (by rw [hlv]; push_cast; omega)
      exact ⟨joined, by
        rw [accept_not_full next link mac true hs1 (by rw [hcapn]; exact hkc) hne]
        simp [hj]⟩
  · rintro ⟨c, hc⟩
    obtain ⟨hs1, hs2, hs3, hs4⟩ := identitySearch_spec m.clients capacity hlen
    have hi : i < m.clients.length := by
      by_cases h0 : 0 ≤ i
      · rw [index_of_nonneg _ _ h0] at hc
        have := (List.getElem?_eq_some.mp hc).1
        omega
      · omega
    have hne : identitySearch m.clients ≠ i := by
      intro heq
      have hle : identitySearch m.clients ≤ capacity := by
        rw [heq]; rw [hlen] at hi; push_cast at hi; omega
      have := hs4 hle
      rw [heq, hc] at this
      exact absurd this (by simp)
    refine ⟨hne, ?_⟩
    intro link req sendOk o hacc
    rcases accept_eq_some hacc with ⟨_, hid⟩ | ⟨_, _, _, _, _, hid, _⟩
    · rw [hid]
      simp
    · rw [hid]
      intro heq
      exact hne (Option.some.inj heq)

theorem identity_reused_after_leave_witness :
    identitySearch [none, none, some (client.mk ⟨2⟩ [2, 0, 0, 0, 0, 2])] = 1 ∧
      1 ≤ identitySearch [none, none, some (client.mk ⟨2⟩ [2, 0, 0, 0, 0, 2])] ∧
      identitySearch [none, none, some (client.mk ⟨2⟩ [2, 0, 0, 0, 0, 2])] ≤ 1 :=
  have h := (identity_reused_after_leave 2
    (Master.mk ⟨2⟩
      [none, some ⟨⟨1⟩, [2, 0, 0, 0, 0, 1]⟩, some ⟨⟨2⟩, [2, 0, 0, 0, 0, 2]⟩]
      [([2, 0, 0, 0, 0, 2], 2), ([2, 0, 0, 0, 0, 1], 1)] ⟨[false, true, true], []⟩)
    (Reachable.join
      (Master.mk ⟨2⟩ [none, some ⟨⟨1⟩, [2, 0, 0, 0, 0, 1]⟩, none]
        [([2, 0, 0, 0, 0, 1], 1)] ⟨[false, true, false], []⟩)
      { master := Master.mk ⟨2⟩
          [none, some ⟨⟨1⟩, [2, 0, 0, 0, 0, 1]⟩, some ⟨⟨2⟩, [2, 0, 0, 0, 0, 2]⟩]
          [([2, 0, 0, 0, 0, 2], 2), ([2, 0, 0, 0, 0, 1], 1)] ⟨[false, true, true], []⟩
        sent := some { Address := some 2, Error := none }
        identity := some 2 }
      ⟨2⟩ (some [2, 0, 0, 0, 0, 2]) true
      (Reachable.join (NewMaster 2)
        { master := Master.mk ⟨2⟩ [none, some ⟨⟨1⟩, [2, 0, 0, 0, 0, 1]⟩, none]
            [([2, 0, 0, 0, 0, 1], 1)] ⟨[false, true, false], []⟩
          sent := some { Address := some 1, Error := none }
          identity := some 1 }
        ⟨1⟩ (some [2, 0, 0, 0, 0, 1]) true Reachable.init (by decide))
      (by decide))
    1).1
    (Master.mk ⟨2⟩ [none, none, some ⟨⟨2⟩, [2, 0, 0, 0, 0, 2]⟩]
      [([2, 0, 0, 0, 0, 2], 2)] ⟨[false, false, true], []⟩)
    (by decide)
  ⟨by decide, h.1, h.2.1⟩

/-! ## Scenario D: a leave that runs while another endpoint sends to the leaving one -/

theorem unicastBranchInterleaved_same (september : September) (m : Master)
    (myIdentity : Int) (underlying : List Int) (buf : ReusableSlice) (dst : HardwareAddr) :
    unicastBranchInterleaved september m m m myIdentity underlying buf dst =
      unicastBranch september m myIdentity underlying buf dst := rfl

/-- C17 (the code at the failing schedule): endpoints 1 and 2 are joined and endpoint 1
sends a unicast frame to endpoint 2.  If the whole leave sequence of endpoint 2 runs
after the `SendUnicast` decision and before the hand-off, or if its first two steps
(mapping removed, slot cleared, identity still enabled) run after the lookup and before
the decision, the hand-off reads the emptied slot: the iteration panics.  When the whole leave
runs before the decision, the frame is dropped with `Done`.  After the leave the
identity search yields 2 again. -/
theorem leave_during_unicast_reads_emptied_slot :
    (Master.mk ⟨2⟩
        [none, some ⟨⟨1⟩, [2, 0, 0, 0, 0, 1]⟩, some ⟨⟨2⟩, [2, 0, 0, 0, 0, 2]⟩]
        [([2, 0, 0, 0, 0, 2], 2), ([2, 0, 0, 0, 0, 1], 1)]
        ⟨[false, true, true], []⟩).clientLeave 2 =
      some (Master.mk ⟨2⟩ [none, some ⟨⟨1⟩, [2, 0, 0, 0, 0, 1]⟩, none]
        [([2, 0, 0, 0, 0, 1], 1)] ⟨[false, true, false], []⟩) ∧
    ((Master.mk ⟨2⟩
        [none, some ⟨⟨1⟩, [2, 0, 0, 0, 0, 1]⟩, some ⟨⟨2⟩, [2, 0, 0, 0, 0, 2]⟩]
        [([2, 0, 0, 0, 0, 2], 2), ([2, 0, 0, 0, 0, 1], 1)]
        ⟨[false, true, true], []⟩).removeMapping 2).bind (fun m1 => m1.clearSlot 2) =
      some (Master.mk ⟨2⟩ [none, some ⟨⟨1⟩, [2, 0, 0, 0, 0, 1]⟩, none]
        [([2, 0, 0, 0, 0, 1], 1)] ⟨[false, true, true], []⟩) ∧
    unicastBranchInterleaved CreateSeptember
        (Master.mk ⟨2⟩
          [none, some ⟨⟨1⟩, [2, 0, 0, 0, 0, 1]⟩, some ⟨⟨2⟩, [2, 0, 0, 0, 0, 2]⟩]
          [([2, 0, 0, 0, 0, 2], 2), ([2, 0, 0, 0, 0, 1], 1)] ⟨[false, true, true], []⟩)
        (Master.mk ⟨2⟩
          [none, some ⟨⟨1⟩, [2, 0, 0, 0, 0, 1]⟩, some ⟨⟨2⟩, [2, 0, 0, 0, 0, 2]⟩]
          [([2, 0, 0, 0, 0, 2], 2), ([2, 0, 0, 0, 0, 1], 1)] ⟨[false, true, true], []⟩)
        (Master.mk ⟨2⟩ [none, some ⟨⟨1⟩, [2, 0, 0, 0, 0, 1]⟩, none]
          [([2, 0, 0, 0, 0, 1], 1)] ⟨[false, true, false], []⟩)
        1 [0, 0, 0] ⟨7, [2, 0, 0, 0, 0, 2, 2, 0, 0, 0, 0, 1, 8, 0, 5, 5]⟩
        [2, 0, 0, 0, 0, 2] = none ∧
    unicastBranchInterleaved CreateSeptember
        (Master.mk ⟨2⟩
          [none, some ⟨⟨1⟩, [2, 0, 0, 0, 0, 1]⟩, some ⟨⟨2⟩, [2, 0, 0, 0, 0, 2]⟩]
          [([2, 0, 0, 0, 0, 2], 2), ([2, 0, 0, 0, 0, 1], 1)] ⟨[false, true, true], []⟩)
        (Master.mk ⟨2⟩ [none, some ⟨⟨1⟩, [2, 0, 0, 0, 0, 1]⟩, none]
          [([2, 0, 0, 0, 0, 1], 1)] ⟨[false, true, true], []⟩)
        (Master.mk ⟨2⟩ [none, some ⟨⟨1⟩, [2, 0, 0, 0, 0, 1]⟩, none]
          [([2, 0, 0, 0, 0, 1], 1)] ⟨[false, true, true], []⟩)
        1 [0, 0, 0] ⟨7, [2, 0, 0, 0, 0, 2, 2, 0, 0, 0, 0, 1, 8, 0, 5, 5]⟩
        [2, 0, 0, 0, 0, 2] = none ∧
    unicastBranchInterleaved CreateSeptember
        (Master.mk ⟨2⟩
          [none, some ⟨⟨1⟩, [2, 0, 0, 0, 0, 1]⟩, some ⟨⟨2⟩, [2, 0, 0, 0, 0, 2]⟩]
          [([2, 0, 0, 0, 0, 2], 2), ([2, 0, 0, 0, 0, 1], 1)] ⟨[false, true, true], []⟩)
        (Master.mk ⟨2⟩ [none, some ⟨⟨1⟩, [2, 0, 0, 0, 0, 1]⟩, none]
          [([2, 0, 0, 0, 0, 1], 1)] ⟨[false, true, false], []⟩)
        (Master.mk ⟨2⟩ [none, some ⟨⟨1⟩, [2, 0, 0, 0, 0, 1]⟩, none]
          [([2, 0, 0, 0, 0, 1], 1)] ⟨[false, true, false], []⟩)
        1 [0, 0, 0] ⟨7, [2, 0, 0, 0, 0, 2, 2, 0, 0, 0, 0, 1, 8, 0, 5, 5]⟩
        [2, 0, 0, 0, 0, 2] =
      some ([Call.Done ⟨7, [2, 0, 0, 0, 0, 2, 2, 0, 0, 0, 0, 1, 8, 0, 5, 5]⟩], [0, 0, 0]) ∧
    identitySearch [none, some (client.mk ⟨1⟩ [2, 0, 0, 0, 0, 1]), none] = 2 := by
  decide

/-! ## Scenario B: broadcast to every other joined endpoint -/

theorem fanOut_returns (clients : List (Option client)) (buf : ReusableSlice)
    (recipients : List Int) (calls : List Call)
    (h : ∀ id ∈ recipients, ∃ slot, index clients id = some slot) :
    ∃ result, fanOut clients buf recipients calls = some result := by
  induction recipients generalizing calls with
  | nil => exact ⟨calls, rfl⟩
  | cons id rest ih =>
    obtain ⟨slot, hslot⟩ := h id (List.mem_cons_self id rest)
    have hrest : ∀ j ∈ rest, ∃ slot, index clients j = some slot :=
      fun j hj => h j (List.mem_cons_of_mem id hj)
    cases slot with
    | none =>
      obtain ⟨r, hr⟩ := ih calls hrest
      exact ⟨r, by simp only [fanOut, hslot, hr]⟩
    | some c =>
      obtain ⟨r, hr⟩ := ih (calls ++ [Call.AddOwner buf, Call.WriteFrame id c.Link buf]) hrest
      exact ⟨r, by simp only [fanOut, hslot, hr]⟩

theorem fanOut_count (clients : List (Option client)) (buf : ReusableSlice)
    (recipients : List Int) (calls result : List Call)
    (h : fanOut clients buf recipients calls = some result) (id : Int) (c : client)
    (hc : index clients id = some (some c)) :
    result.count (Call.WriteFrame id c.Link buf) =
      calls.count (Call.WriteFrame id c.Link buf) + recipients.count id := by
  induction recipients generalizing calls with
  | nil =>
    simp only [fanOut, Option.some.injEq] at h
    subst h
    simp
  | cons j rest ih =>
    unfold fanOut at h
    split at h
    · exact absurd h (by simp)
    · rename_i hj
      have hne : j ≠ id := by
        intro heq
        rw [heq, hc] at hj
        exact absurd hj (by simp)
      rw [ih calls h, List.count_cons]
      simp [hne]
    · rename_i d hj
      rw [ih _ h, List.count_append, List.count_cons, List.count_cons, List.count_cons,
        List.count_nil]
      by_cases heq : j = id
      · subst heq
        have hd : d = c := by
          rw [hc] at hj
          exact (Option.some.inj (Option.some.inj hj)).symm
        subst hd
        simp
        omega
      · have hw : (Call.WriteFrame j d.Link buf == Call.WriteFrame id c.Link buf) = false := by
          simp [heq]
        simp [hw, heq]

theorem fanOut_mem (clients : List (Option client)) (buf : ReusableSlice)
    (recipients : List Int) (calls result : List Call)
    (h : fanOut clients buf recipients calls = some result) (id : Int) (link : Link)
    (b : ReusableSlice) (hm : Call.WriteFrame id link b ∈ result) :
    Call.WriteFrame id link b ∈ calls ∨
      (id ∈ recipients ∧ b = buf ∧ ∃ c, index clients id = some (some c) ∧ link = c.Link) := by
  induction recipients generalizing calls with
  | nil =>
    simp only [fanOut, Option.some.injEq] at h
    subst h
    exact Or.inl hm
  | cons j rest ih =>
    unfold fanOut at h
    split at h
    · exact absurd h (by simp)
    · rcases ih calls h with h1 | ⟨h1, h2, h3⟩
      · exact Or.inl h1
      · exact Or.inr ⟨List.mem_cons_of_mem j h1, h2, h3⟩
    · rename_i d hj
      rcases ih _ h with h1 | ⟨h1, h2, h3⟩
      · simp only [List.mem_append, List.mem_cons, List.mem_singleton, List.mem_nil_iff,
          or_false] at h1
        rcases h1 with h1 | h1 | h1
        · exact Or.inl h1
        · exact absurd h1 (by simp)
        · simp only [Call.WriteFrame.injEq] at h1
          obtain ⟨e1, e2, e3⟩ := h1
          subst e1
          exact Or.inr ⟨List.mem_cons_self _ _, e3, d, hj, e2⟩
      · exact Or.inr ⟨List.mem_cons_of_mem j h1, h2, h3⟩

theorem Destination_length {frame : List Nat} {dst : HardwareAddr}
    (h : Destination frame = some dst) : dst.length = 6 := by
  unfold Destination at h
  split at h
  · rename_i hl
    have := (Option.some.inj h).symm
    subst this
    simp [List.length_take, hl]
  · exact absurd h (by simp)

theorem frameHandlerStep_of_broadcast (september : September) (master : Master)
    (myIdentity : Int) (underlying : List Int) (buf : ReusableSlice) (dst : HardwareAddr)
    (hdst : Destination buf.Slice = some dst)
    (hb : isBroadcast dst = some true ∨ isIPv4Multicast dst = some true) :
    frameHandlerStep september master myIdentity underlying buf =
      broadcastBranch september master myIdentity underlying buf := by
  have hlen := Destination_length hdst
  match dst, hlen with
  | [b0, b1, b2, b3, b4, b5], _ =>
    have hbb := isBroadcast_six b0 b1 b2 b3 b4 b5
    unfold frameHandlerStep
    rw [hdst]
    simp only
    rcases hb with h | h
    · rw [h]
    · rw [h]
      cases hx : isBroadcast [b0, b1, b2, b3, b4, b5] with
      | none => rw [hx] at hbb; exact absurd hbb (by simp)
      | some b => cases b <;> rfl

/-- C11: in every master state reachable by join handshakes and `clientLeave` steps, with
the pass-through policy, one `frameHandler` iteration for a broadcast (or IPv4-multicast)
frame from endpoint `s`, on which `frame.Payload()` returns (the frame holds its whole
header, VLAN tags included), returns; it hands the buffer exactly once to the writer of
every joined endpoint other than `s`, and every hand-off it makes is such a one: none
goes to `s`, none to an empty slot. -/
theorem broadcast_reaches_every_other_joined (capacity : Nat) (m : Master)
    (hr : Reachable capacity m) (s : Int) (underlying : List Int)
    (hu : underlying.length = capacity + 1) (buf : ReusableSlice) (dst : HardwareAddr)
    (hdst : Destination buf.Slice = some dst)
    (hb : isBroadcast dst = some true ∨ isIPv4Multicast dst = some true)
    (payload : List Nat) (hp : Payload buf.Slice = some payload) :
    ∃ calls u, frameHandlerStep CreateSeptember m s underlying buf = some (calls, u) ∧
      (∀ (id : Int) (c : client), index m.clients id = some (some c) → id ≠ s →
        calls.count (Call.WriteFrame id c.Link buf) = 1) ∧
      (∀ (id : Int) (link : Link) (b : ReusableSlice), Call.WriteFrame id link b ∈ calls →
        id ≠ s ∧ b = buf ∧ ∃ c, index m.clients id = some (some c) ∧ link = c.Link) := by
  obtain ⟨_, hl, hv⟩ := reachable_wellFormed capacity m hr
  have hlv : m.positionManager.isEnabled.length ≤ underlying.length := by
    rw [hv, hu]; simp [hl]
  have hsb := SendBroadcast_eq m.positionManager s (payload.length : Int)
    underlying hlv
  have hmem : ∀ id, id ∈ m.positionManager.Enabled.filter (fun i => decide (i ≠ s)) ↔
      (∃ c, index m.clients id = some (some c)) ∧ id ≠ s := by
    intro id
    rw [List.mem_filter, mem_Enabled, enabled_iff_occupied m hv]
    simp
  have hnd : (m.positionManager.Enabled.filter (fun i => decide (i ≠ s))).Nodup :=
    (Enabled_nodup m.positionManager).filter _
  obtain ⟨fanned, hf⟩ := fanOut_returns m.clients buf
    (m.positionManager.Enabled.filter (fun i => decide (i ≠ s))) []
    (fun id hid => by
      obtain ⟨⟨c, hc⟩, _⟩ := (hmem id).mp hid
      exact ⟨some c, hc⟩)
  have hstep : frameHandlerStep CreateSeptember m s underlying buf =
      some (fanned ++ [Call.Done buf],
        m.positionManager.Enabled.filter (fun i => decide (i ≠ s)) ++
          underlying.drop (m.positionManager.Enabled.filter (fun i => decide (i ≠ s))).length) := by
    rw [frameHandlerStep_of_broadcast _ _ _ _ _ _ hdst hb]
    simp only [broadcastBranch, hp, CreateSeptember, hsb, hf]
  refine ⟨_, _, hstep, ?_, ?_⟩
  · intro id c hc hne
    rw [List.count_append, fanOut_count _ _ _ _ _ hf id c hc,
      List.count_eq_one_of_mem hnd ((hmem id).mpr ⟨⟨c, hc⟩, hne⟩)]
    simp
  · intro id link b hin
    simp only [List.mem_append, List.mem_singleton] at hin
    rcases hin with hin | hin
    · rcases fanOut_mem _ _ _ _ _ hf id link b hin with h1 | ⟨h1, h2, h3⟩
      · exact absurd h1 (by simp)
      · exact ⟨((hmem id).mp h1).2, h2, h3⟩
    · exact absurd hin (by simp)

theorem broadcast_reaches_every_other_joined_witness :
    ∃ calls u, frameHandlerStep CreateSeptember
        (Master.mk ⟨3⟩
          [none, some ⟨⟨1⟩, [2, 0, 0, 0, 0, 1]⟩, some ⟨⟨2⟩, [2, 0, 0, 0, 0, 2]⟩,
            some ⟨⟨3⟩, [2, 0, 0, 0, 0, 3]⟩]
          [([2, 0, 0, 0, 0, 3], 3), ([2, 0, 0, 0, 0, 2], 2), ([2, 0, 0, 0, 0, 1], 1)]
          ⟨[false, true, true, true], []⟩)
        1 [0, 0, 0, 0] ⟨7, [255, 255, 255, 255, 255, 255, 2, 0, 0, 0, 0, 1, 8, 0, 5, 5]⟩ = some (calls, u) ∧
      (∀ (id : Int) (c : client),
        index (Master.mk ⟨3⟩
          [none, some ⟨⟨1⟩, [2, 0, 0, 0, 0, 1]⟩, some ⟨⟨2⟩, [2, 0, 0, 0, 0, 2]⟩,
            some ⟨⟨3⟩, [2, 0, 0, 0, 0, 3]⟩]
          [([2, 0, 0, 0, 0, 3], 3), ([2, 0, 0, 0, 0, 2], 2), ([2, 0, 0, 0, 0, 1], 1)]
          ⟨[false, true, true, true], []⟩).clients id = some (some c) → id ≠ 1 →
        calls.count (Call.WriteFrame id c.Link ⟨7, [255, 255, 255, 255, 255, 255, 2, 0, 0, 0, 0, 1, 8, 0, 5, 5]⟩) = 1) ∧
      (∀ (id : Int) (link : Link) (b : ReusableSlice), Call.WriteFrame id link b ∈ calls →
        id ≠ 1 ∧ b = ⟨7, [255, 255, 255, 255, 255, 255, 2, 0, 0, 0, 0, 1, 8, 0, 5, 5]⟩ ∧
        ∃ c, index (Master.mk ⟨3⟩
          [none, some ⟨⟨1⟩, [2, 0, 0, 0, 0, 1]⟩, some ⟨⟨2⟩, [2, 0, 0, 0, 0, 2]⟩,
            some ⟨⟨3⟩, [2, 0, 0, 0, 0, 3]⟩]
          [([2, 0, 0, 0, 0, 3], 3), ([2, 0, 0, 0, 0, 2], 2), ([2, 0, 0, 0, 0, 1], 1)]
          ⟨[false, true, true, true], []⟩).clients id = some (some c) ∧ link = c.Link) :=
  broadcast_reaches_every_other_joined 3
    (Master.mk ⟨3⟩
      [none, some ⟨⟨1⟩, [2, 0, 0, 0, 0, 1]⟩, some ⟨⟨2⟩, [2, 0, 0, 0, 0, 2]⟩,
        some ⟨⟨3⟩, [2, 0, 0, 0, 0, 3]⟩]
      [([2, 0, 0, 0, 0, 3], 3), ([2, 0, 0, 0, 0, 2], 2), ([2, 0, 0, 0, 0, 1], 1)]
      ⟨[false, true, true, true], []⟩)
    (Reachable.join
      (Master.mk ⟨3⟩
        [none, some ⟨⟨1⟩, [2, 0, 0, 0, 0, 1]⟩, some ⟨⟨2⟩, [2, 0, 0, 0, 0, 2]⟩, none]
        [([2, 0, 0, 0, 0, 2], 2), ([2, 0, 0, 0, 0, 1], 1)] ⟨[false, true, true, false], []⟩)
      { master := Master.mk ⟨3⟩
          [none, some ⟨⟨1⟩, [2, 0, 0, 0, 0, 1]⟩, some ⟨⟨2⟩, [2, 0, 0, 0, 0, 2]⟩,
            some ⟨⟨3⟩, [2, 0, 0, 0, 0, 3]⟩]
          [([2, 0, 0, 0, 0, 3], 3), ([2, 0, 0, 0, 0, 2], 2), ([2, 0, 0, 0, 0, 1], 1)]
          ⟨[false, true, true, true], []⟩
        sent := some { Address := some 3, Error := none }
        identity := some 3 }
      ⟨3⟩ (some [2, 0, 0, 0, 0, 3]) true
      (Reachable.join
        (Master.mk ⟨3⟩ [none, some ⟨⟨1⟩, [2, 0, 0, 0, 0, 1]⟩, none, none]
          [([2, 0, 0, 0, 0, 1], 1)] ⟨[false, true, false, false], []⟩)
        { master := Master.mk ⟨3⟩
            [none, some ⟨⟨1⟩, [2, 0, 0, 0, 0, 1]⟩, some ⟨⟨2⟩, [2, 0, 0, 0, 0, 2]⟩, none]
            [([2, 0, 0, 0, 0, 2], 2), ([2, 0, 0, 0, 0, 1], 1)]
            ⟨[false, true, true, false], []⟩
          sent := some { Address := some 2, Error := none }
          identity := some 2 }
        ⟨2⟩ (some [2, 0, 0, 0, 0, 2]) true
        (Reachable.join (NewMaster 3)
          { master := Master.mk ⟨3⟩ [none, some ⟨⟨1⟩, [2, 0, 0, 0, 0, 1]⟩, none, none]
              [([2, 0, 0, 0, 0, 1], 1)] ⟨[false, true, false, false], []⟩
            sent := some { Address := some 1, Error := none }
            identity := some 1 }
          ⟨1⟩ (some [2, 0, 0, 0, 0, 1]) true Reachable.init (by decide))
        (by decide))
      (by decide))
    1 [0, 0, 0, 0] (by decide)
    ⟨7, [255, 255, 255, 255, 255, 255, 2, 0, 0, 0, 0, 1, 8, 0, 5, 5]⟩
    [255, 255, 255, 255, 255, 255] (by decide) (by decide) [5, 5] (by decide)

/-! ## Frames and their payload -/

/-- On a frame of at least 14 bytes whose byte 12 is neither 0x81 nor 0x88 `Payload`
returns the bytes from index 14 on. -/
theorem Payload_of_untagged (frame : List Nat) (b12 : Nat) (h12 : index frame 12 = some b12)
    (h81 : b12 ≠ 0x81) (h88 : b12 ≠ 0x88) (hlen : 14 ≤ frame.length) :
    Payload frame = some (frame.drop 14) := by
  simp [Payload, Tagging, h12, h81, h88, hlen]

/-- A frame tagged 0x8100 carries an 18-byte header.  On the 16-byte frames
`02:00:00:00:00:02 | 02:00:00:00:00:01 | 81 00 | 05 05` and
`ff:ff:ff:ff:ff:ff | 02:00:00:00:00:01 | 81 00 | 05 05` `Payload` panics, and with it the
iteration of `frameHandler`, in the unicast and in the broadcast branch; with four more
bytes the payload starts at index 18. -/
theorem Payload_of_truncated_tagged_frame :
    Tagging [2, 0, 0, 0, 0, 2, 2, 0, 0, 0, 0, 1, 0x81, 0x00, 5, 5] = some 4 ∧
    Payload [2, 0, 0, 0, 0, 2, 2, 0, 0, 0, 0, 1, 0x81, 0x00, 5, 5] = none ∧
    frameHandlerStep CreateSeptember
        (Master.mk ⟨2⟩
          [none, some ⟨⟨1⟩, [2, 0, 0, 0, 0, 1]⟩, some ⟨⟨2⟩, [2, 0, 0, 0, 0, 2]⟩]
          [([2, 0, 0, 0, 0, 2], 2), ([2, 0, 0, 0, 0, 1], 1)] ⟨[false, true, true], []⟩)
        1 [0, 0, 0] ⟨7, [2, 0, 0, 0, 0, 2, 2, 0, 0, 0, 0, 1, 0x81, 0x00, 5, 5]⟩ = none ∧
    frameHandlerStep CreateSeptember
        (Master.mk ⟨2⟩
          [none, some ⟨⟨1⟩, [2, 0, 0, 0, 0, 1]⟩, some ⟨⟨2⟩, [2, 0, 0, 0, 0, 2]⟩]
          [([2, 0, 0, 0, 0, 2], 2), ([2, 0, 0, 0, 0, 1], 1)] ⟨[false, true, true], []⟩)
        1 [0, 0, 0]
        ⟨7, [255, 255, 255, 255, 255, 255, 2, 0, 0, 0, 0, 1, 0x81, 0x00, 5, 5]⟩ = none ∧
    Payload [2, 0, 0, 0, 0, 2, 2, 0, 0, 0, 0, 1, 0x81, 0x00, 0, 7, 8, 0, 5, 5] = some [5, 5] ∧
    Payload [2, 0, 0, 0, 0, 2, 2, 0, 0, 0, 0, 1, 0x88, 0xa8, 0, 7, 0x81, 0x00, 0, 9, 8, 0, 5] =
      some [5] := by
  decide

end Squirrels
